import Mathlib

/-!
# Verification of the `diodes` covert data-transfer tools

Shallow embedding of the `diodes` repository (audio channel mux, dotmatrix
screen transfer, keyboard exfiltration pipeline) and proofs of the spec's
claims about it.  Bytes are modelled as `Nat` (with explicit `% 256` / `< 256`
facts where the code depends on byte range); Python byte strings are
`List Nat`; bit strings are `List Bool`.
-/

namespace Diodes

/-! ## VLE (unsigned LEB128-style variable length integers)

`enc_vle` is translated from `src/vx/vxt.py` lines 64-75 and `dec_vle` from
`src/vx/vxr.py` lines 92-114.  The Python decoder returns `(-1, 0)` on
exhausted input or when the accumulated shift reaches 63 bits, hence the
`Int` result. -/

/-- Fuel-driven loop body of `enc_vle` (the fuel only serves structural
recursion; `value` itself is always sufficient fuel). -/
def enc_vle_go (fuel value : Nat) : List Nat :=
  match fuel with
  | 0 => [value]
  | fuel + 1 =>
    if value < 0x80 then [value]
    else (value % 0x80 + 0x80) :: enc_vle_go fuel (value / 0x80)

/-- `enc_vle` from `src/vx/vxt.py`: emit low 7 bits with continuation flag
`0x80` while the value is `≥ 0x80`, then the final value as-is. -/
def enc_vle (value : Nat) : List Nat := enc_vle_go value value

theorem enc_vle_go_fuel : ∀ (f1 f2 v : Nat), v ≤ f1 → v ≤ f2 →
    enc_vle_go f1 v = enc_vle_go f2 v := by
  have main : ∀ (v f1 f2 : Nat), v ≤ f1 → v ≤ f2 →
      enc_vle_go f1 v = enc_vle_go f2 v := by
    intro v
    induction v using Nat.strong_induction_on with
    | _ v ih =>
      intro f1 f2 h1 h2
      match f1, f2 with
      | 0, 0 => rfl
      | 0, g2 + 1 =>
        have hv : v = 0 := by omega
        subst hv
        simp [enc_vle_go]
      | g1 + 1, 0 =>
        have hv : v = 0 := by omega
        subst hv
        simp [enc_vle_go]
      | g1 + 1, g2 + 1 =>
        simp only [enc_vle_go]
        by_cases hs : v < 0x80
        · simp [hs]
        · simp only [if_neg hs]
          congr 1
          exact ih (v / 0x80) (Nat.div_lt_self (by omega) (by norm_num)) g1 g2
            (by have := Nat.div_le_self v 0x80; omega)
            (by have := Nat.div_le_self v 0x80; omega)
  exact fun f1 f2 v h1 h2 => main v f1 f2 h1 h2

/-- Loop body of `dec_vle` from `src/vx/vxr.py`: accumulate 7 bits per byte
shifted by `7 × position`; a byte with bit 7 clear terminates; reaching a
shift of 63 bits or running out of bytes yields `(-1, 0)`. -/
def dec_vle_go : List Nat → Nat → Nat → Nat → Int × Nat
  | [], _, _, _ => (-1, 0)
  | v :: rest, vret, vpow, nate =>
    if v < 0x80 then ((vret ||| (v <<< vpow) : Nat), nate + 1)
    else
      let vret := vret ||| ((v - 0x80) <<< vpow)
      let vpow := vpow + 7
      if vpow ≥ 63 then (-1, 0)
      else dec_vle_go rest vret vpow (nate + 1)

/-- `dec_vle` from `src/vx/vxr.py`: decoded value and number of bytes eaten. -/
def dec_vle (buf : List Nat) : Int × Nat :=
  dec_vle_go buf 0 0 0

theorem enc_vle_small {v : Nat} (h : v < 0x80) : enc_vle v = [v] := by
  cases v with
  | zero => rfl
  | succ n => simp [enc_vle, enc_vle_go, h]

theorem enc_vle_large {v : Nat} (h : ¬ v < 0x80) :
    enc_vle v = (v % 0x80 + 0x80) :: enc_vle (v / 0x80) := by
  match v with
  | 0 => exact absurd (by norm_num) h
  | n + 1 =>
    show enc_vle_go (n + 1) (n + 1) = _
    simp only [enc_vle_go, if_neg h]
    congr 1
    exact enc_vle_go_fuel n ((n + 1) / 0x80) ((n + 1) / 0x80) (by omega) (by omega)

theorem enc_vle_ne_nil (v : Nat) : enc_vle v ≠ [] := by
  by_cases h : v < 0x80
  · rw [enc_vle_small h]; simp
  · rw [enc_vle_large h]; simp

/-- Every byte of the encoding except the last has bit 7 set. -/
theorem enc_vle_dropLast (v : Nat) : ∀ b ∈ (enc_vle v).dropLast, 0x80 ≤ b := by
  induction v using Nat.strong_induction_on with
  | _ v ih =>
    by_cases h : v < 0x80
    · rw [enc_vle_small h]; simp
    · rw [enc_vle_large h]
      intro b hb
      rw [List.dropLast_cons_of_ne_nil (enc_vle_ne_nil _)] at hb
      rcases List.mem_cons.mp hb with h1 | h1
      · omega
      · exact ih (v / 0x80) (Nat.div_lt_self (by omega) (by norm_num)) b h1

/-- The final byte of the encoding has bit 7 clear. -/
theorem enc_vle_getLast (v : Nat) :
    (enc_vle v).getLast (enc_vle_ne_nil v) < 0x80 := by
  induction v using Nat.strong_induction_on with
  | _ v ih =>
    by_cases h : v < 0x80
    · have hv : enc_vle v = [v] := enc_vle_small h
      simp [List.getLast_congr _ _ hv, h]
    · have hv := enc_vle_large h
      rw [List.getLast_congr _ _ hv, List.getLast_cons (enc_vle_ne_nil _)]
      exact ih (v / 0x80) (Nat.div_lt_self (by omega) (by norm_num))

theorem enc_vle_length_le {v k : Nat} (hv : v < 2 ^ (7 * k)) (hk : 0 < k) :
    (enc_vle v).length ≤ k := by
  induction k generalizing v with
  | zero => omega
  | succ k ih =>
    by_cases h : v < 0x80
    · rw [enc_vle_small h]; simp
    · rw [enc_vle_large h]
      have hk' : 0 < k := by
        rcases Nat.eq_zero_or_pos k with hk0 | hk0
        · subst hk0; norm_num at hv; omega
        · exact hk0
      have : v / 0x80 < 2 ^ (7 * k) := by
        have h1 : v < 0x80 * 2 ^ (7 * k) := by
          have : (2 : Nat) ^ (7 * (k + 1)) = 0x80 * 2 ^ (7 * k) := by
            rw [Nat.mul_succ, pow_add]; ring
          omega
        exact Nat.div_lt_of_lt_mul h1
      simpa using Nat.succ_le_succ (ih this hk')

/-- Helper: for `a < 2^k`, bitwise or with a value shifted left by `k` is
plain addition (the bit ranges are disjoint). -/
theorem lor_shiftLeft_eq_add {a b k : Nat} (h : a < 2 ^ k) :
    a ||| (b <<< k) = a + b * 2 ^ k := by
  apply Nat.eq_of_testBit_eq
  intro i
  rw [Nat.testBit_lor, Nat.testBit_shiftLeft]
  by_cases hik : k ≤ i
  · have ha : a.testBit i = false := by
      apply Nat.testBit_lt_two_pow
      exact lt_of_lt_of_le h (Nat.pow_le_pow_right (by norm_num) hik)
    have hdivk : (a + b * 2 ^ k) / 2 ^ k = b := by
      rw [mul_comm b, Nat.add_mul_div_left _ _ (Nat.pos_pow_of_pos k (by norm_num))]
      rw [Nat.div_eq_of_lt h]; omega
    have hdiv : (a + b * 2 ^ k) / 2 ^ i = b / 2 ^ (i - k) := by
      have h2 : (2:Nat) ^ i = 2 ^ k * 2 ^ (i - k) := by
        rw [← pow_add]; congr 1; omega
      rw [h2, ← Nat.div_div_eq_div_mul, hdivk]
    have hrhs : (a + b * 2 ^ k).testBit i = b.testBit (i - k) := by
      rw [Nat.testBit_to_div_mod, Nat.testBit_to_div_mod, hdiv]
    simp [hik, hrhs, ha]
  · have hmod : (a + b * 2 ^ k) % 2 ^ k = a := by
      rw [Nat.add_mul_mod_self_right, Nat.mod_eq_of_lt h]
    have hrhs : (a + b * 2 ^ k).testBit i = a.testBit i := by
      conv_rhs => rw [← hmod]
      rw [Nat.testBit_mod_two_pow]
      simp [show i < k by omega]
    simp [hik, hrhs]

/-- Splitting a shifted value into its low 7 bits and the rest. -/
theorem shiftLeft_split_7 (v vpow : Nat) :
    ((v % 0x80) <<< vpow) ||| ((v / 0x80) <<< (vpow + 7)) = v <<< vpow := by
  have h1 : (v % 0x80) <<< vpow < 2 ^ (vpow + 7) := by
    rw [Nat.shiftLeft_eq, pow_add, mul_comm ((2:Nat) ^ vpow)]
    have hm : v % 0x80 < 2 ^ 7 := Nat.mod_lt v (by norm_num)
    exact Nat.mul_lt_mul_of_lt_of_le hm (le_refl _) (Nat.pos_pow_of_pos _ (by norm_num))
  rw [lor_shiftLeft_eq_add h1, Nat.shiftLeft_eq, Nat.shiftLeft_eq]
  have hv : v = v % 0x80 + 0x80 * (v / 0x80) := (Nat.mod_add_div v 0x80).symm
  conv_rhs => rw [hv]
  rw [pow_add]
  ring_nf

/-- Decoding an encoded value (followed by anything) from any accumulator
state returns the accumulated value and eats exactly the encoding. -/
theorem dec_vle_go_append (v : Nat) : ∀ (rest : List Nat) (vret vpow nate : Nat),
    vpow + 7 * ((enc_vle v).length - 1) < 63 →
    dec_vle_go (enc_vle v ++ rest) vret vpow nate
      = (((vret ||| (v <<< vpow) : Nat) : Int), nate + (enc_vle v).length) := by
  induction v using Nat.strong_induction_on with
  | _ v ih =>
    intro rest vret vpow nate hpow
    by_cases h : v < 0x80
    · rw [enc_vle_small h]
      simp [dec_vle_go, h]
    · rw [enc_vle_large h] at hpow ⊢
      have hlen : 1 ≤ (enc_vle (v / 0x80)).length :=
        List.length_pos.mpr (enc_vle_ne_nil _)
      simp only [List.cons_append]
      rw [dec_vle_go]
      have hge : ¬ (v % 0x80 + 0x80 < 0x80) := by omega
      simp only [if_neg hge]
      have hbound : ¬ (vpow + 7 ≥ 63) := by
        simp only [List.length_cons] at hpow
        omega
      simp only [if_neg hbound]
      have hrec := ih (v / 0x80) (Nat.div_lt_self (by omega) (by norm_num)) rest
        (vret ||| ((v % 0x80 + 0x80 - 0x80) <<< vpow)) (vpow + 7) (nate + 1)
        (by simp only [List.length_cons] at hpow; omega)
      rw [hrec]
      have hsimp : v % 0x80 + 0x80 - 0x80 = v % 0x80 := by omega
      rw [hsimp, Nat.lor_assoc, shiftLeft_split_7]
      simp only [List.length_cons]
      norm_num
      omega

/-- C4: for every `v < 2^56`, decoding the encoding returns `(v, length)`,
the terminal byte of the encoding has bit 7 clear, and every preceding byte
has bit 7 set. -/
theorem vle_roundtrip (v : Nat) (h : v < 2 ^ 56) :
    dec_vle (enc_vle v) = ((v : Int), (enc_vle v).length)
    ∧ (enc_vle v).getLast (enc_vle_ne_nil v) < 0x80
    ∧ ∀ b ∈ (enc_vle v).dropLast, 0x80 ≤ b := by
  refine ⟨?_, enc_vle_getLast v, enc_vle_dropLast v⟩
  have hlen : (enc_vle v).length ≤ 8 := by
    apply enc_vle_length_le (k := 8) _ (by norm_num)
    exact lt_of_lt_of_le h (by norm_num)
  have := dec_vle_go_append v [] 0 0 0 (by omega)
  rw [List.append_nil] at this
  unfold dec_vle
  rw [this]
  simp [Nat.shiftLeft_zero]

/-- Witness for `vle_roundtrip` at `v = 300`. -/
theorem vle_roundtrip_witness :
    (300 : Nat) < 2 ^ 56
    ∧ (dec_vle (enc_vle 300) = (((300 : Nat) : Int), (enc_vle 300).length)
      ∧ (enc_vle 300).getLast (enc_vle_ne_nil 300) < 0x80
      ∧ ∀ b ∈ (enc_vle 300).dropLast, 0x80 ≤ b) :=
  ⟨by norm_num, vle_roundtrip 300 (by norm_num)⟩

/-! ## Audio channel framing (C1)

Translated from `src/ax/axt.py` (`A.run`, lines 81-140) and `src/ax/axr.py`
(`A.emit`, lines 50-95) for the fixed channel count `nch = 2`.  The byte
split `buf[0::2]` / `buf[1::2]` is `evens` / `odds`; Python's
`[y for x in zip(*bufs) for y in x]` is `zipFlat`. -/

/-- `buf[0::2]`: every second element starting at offset 0. -/
def evens : List α → List α
  | [] => []
  | a :: rest => a :: evens (rest.drop 1)
termination_by l => l.length
decreasing_by simp; omega

/-- `buf[1::2]`: every second element starting at offset 1. -/
def odds (l : List α) : List α := evens (l.drop 1)

/-- `[y for x in zip(a, b) for y in x]`: flatten of the zip (which truncates
at the shorter list, exactly like Python's `zip`). -/
def zipFlat (a b : List α) : List α := (a.zip b).flatMap (fun p => [p.1, p.2])

/-- `struct.pack(">HH", 0xCADE, len(b)) + b` from `axt.py` line 124
(`struct.pack` would raise for lengths above `0xFFFF`; the transmitter only
produces payloads of at most 32764 bytes). -/
def mkFrame (payload : List Nat) : List Nat :=
  0xCA :: 0xDE :: (payload.length / 256) :: (payload.length % 256) :: payload

/-- Per-iteration read size of the transmitter main loop: `(32767 - 4) * 2`. -/
def axtChunkSize : Nat := (32767 - 4) * 2

/-- The transmitter main loop's per-iteration buffers: read up to
`axtChunkSize` bytes, carry a remainder so each emitted buffer has even
length, and flush the remainder as a final iteration at end of input. -/
def axtIters (rem input : List Nat) : List (List Nat) :=
  match input with
  | [] => if rem.isEmpty then [] else [rem]
  | h :: t =>
    let buf := rem ++ (h :: t).take axtChunkSize
    let n := buf.length % 2
    buf.take (buf.length - n)
      :: axtIters (buf.drop (buf.length - n)) ((h :: t).drop axtChunkSize)
termination_by input.length
decreasing_by simp [axtChunkSize]; omega

/-- The two framed channel byte streams the transmitter writes (channel 0
gets the even-offset bytes of each iteration buffer, channel 1 the odd). -/
def axtStream (B : List Nat) : List Nat × List Nat :=
  let iters := axtIters [] B
  ((iters.map (fun b => mkFrame (evens b))).flatten,
   (iters.map (fun b => mkFrame (odds b))).flatten)

/-- Result of the receiver's per-channel frame-header parse. -/
inductive ParseRes
  | wait
  | fatal
  | frame (payload rest : List Nat)
deriving DecidableEq

/-- One channel's parse step in `A.emit` (`axr.py` lines 54-78): fewer than
4 bytes or a declared length longer than the buffer means wait; an all-zero
header means wait; any other wrong magic is the fatal desync path
(`sys.exit(1)`). -/
def parseFrame (buf : List Nat) : ParseRes :=
  match buf with
  | b0 :: b1 :: b2 :: b3 :: rest =>
    let magic := b0 * 256 + b1
    let sz := b2 * 256 + b3
    if magic = 0xCADE then
      if rest.length < sz then .wait
      else .frame (rest.take sz) (rest.drop sz)
    else if sz = 0 then .wait
    else .fatal
  | _ => .wait

/-- One call of `A.emit` on the two channel buffers: parse one frame from
each channel (consuming both), emit nothing if channel 0's payload is
empty, otherwise pad channel 1 with 4 zero bytes when it is shorter,
interleave, and truncate to the sum of the declared lengths.  `none` covers
both "not enough data" and the fatal desync exit (which never happens for
streams produced by the transmitter). -/
def axrEmitStep (c0 c1 : List Nat) : Option (List Nat × List Nat × List Nat) :=
  match parseFrame c0, parseFrame c1 with
  | .frame p0 r0, .frame p1 r1 =>
    if p0.isEmpty then some ([], r0, r1)
    else
      let p1' := if p1.length < p0.length then p1 ++ [0, 0, 0, 0] else p1
      some ((zipFlat p0 p1').take (p0.length + p1.length), r0, r1)
  | _, _ => none

/-- Repeatedly call `A.emit` until no complete frame pair remains
(the receiver's per-iteration `emit` call plus its post-EOF flush loop),
concatenating everything written to standard output. -/
def axrDrain : Nat → List Nat → List Nat → List Nat
  | 0, _, _ => []
  | fuel + 1, c0, c1 =>
    match axrEmitStep c0 c1 with
    | none => []
    | some (out, r0, r1) => out ++ axrDrain fuel r0 r1

theorem evens_nil : evens ([] : List α) = [] := by rw [evens]

theorem evens_cons (a : α) (t : List α) : evens (a :: t) = a :: evens (t.drop 1) := by
  rw [evens]

/-- Two-step list induction helper. -/
theorem list_pair_induction {P : List α → Prop} (h0 : P []) (h1 : ∀ a, P [a])
    (h2 : ∀ a b t, P t → P (a :: b :: t)) : ∀ l, P l := by
  have H : ∀ n (l : List α), l.length ≤ n → P l := by
    intro n
    induction n with
    | zero =>
      intro l hl
      have : l = [] := List.length_eq_zero.mp (by omega)
      simpa [this]
    | succ n ih =>
      intro l hl
      cases l with
      | nil => exact h0
      | cons a t =>
        cases t with
        | nil => exact h1 a
        | cons b t =>
          apply h2
          apply ih
          simp at hl
          omega
  exact fun l => H l.length l le_rfl

theorem evens_cons₂ (a b : α) (t : List α) : evens (a :: b :: t) = a :: evens t := by
  rw [evens_cons]; rfl

theorem odds_cons₂ (a b : α) (t : List α) : odds (a :: b :: t) = b :: odds t := by
  simp only [odds, List.drop_succ_cons, List.drop_zero]
  rw [evens_cons]

theorem evens_length (l : List α) : (evens l).length = (l.length + 1) / 2 := by
  induction l using list_pair_induction with
  | h0 => simp [evens_nil]
  | h1 a => simp [evens_cons, evens_nil]
  | h2 a b t ih => simp [evens_cons₂, ih]; omega

theorem odds_length (l : List α) : (odds l).length = l.length / 2 := by
  cases l with
  | nil => simp [odds, evens_nil]
  | cons a t => simp [odds, evens_length]

/-- Interleaving the evens and odds of an even-length list reconstructs it. -/
theorem zipFlat_evens_odds_even (l : List α) (h : l.length % 2 = 0) :
    zipFlat (evens l) (odds l) = l := by
  induction l using list_pair_induction with
  | h0 => simp [zipFlat, evens_nil, odds]
  | h1 a => simp at h
  | h2 a b t ih =>
    have ht : t.length % 2 = 0 := by simp at h; omega
    rw [evens_cons₂, odds_cons₂]
    simp only [zipFlat, List.zip_cons_cons, List.flatMap_cons, List.cons_append,
      List.nil_append]
    simp only [zipFlat] at ih
    rw [ih ht]

/-- Interleaving the evens and the zero-padded odds of an odd-length list
and truncating to the original length reconstructs it. -/
theorem zipFlat_evens_odds_odd (l : List α) (c : α) (zs : List α)
    (h : l.length % 2 = 1) :
    (zipFlat (evens l) (odds l ++ c :: zs)).take l.length = l := by
  induction l using list_pair_induction with
  | h0 => simp at h
  | h1 a => simp [zipFlat, evens_cons, evens_nil, odds]
  | h2 a b t ih =>
    have ht : t.length % 2 = 1 := by simp at h; omega
    rw [evens_cons₂, odds_cons₂]
    simp only [zipFlat, List.cons_append, List.zip_cons_cons, List.flatMap_cons,
      List.nil_append]
    simp only [zipFlat] at ih
    simp only [List.length_cons, List.take_succ_cons, List.cons_append]
    rw [ih ht]

/-- Parsing a well-formed frame yields its payload and the rest. -/
theorem parseFrame_mkFrame (p s : List Nat) (_h : p.length < 65536) :
    parseFrame (mkFrame p ++ s) = .frame p s := by
  simp only [mkFrame, List.cons_append, parseFrame, if_true]
  have hsz : p.length / 256 * 256 + p.length % 256 = p.length := by omega
  simp only [hsz, List.length_append]
  rw [if_neg (by omega), List.take_left, List.drop_left]

theorem evens_length_le (l : List α) : (evens l).length ≤ l.length := by
  rw [evens_length]; omega

/-- One `emit` call on buffers that start with the two frames of one
transmitter iteration reconstructs that iteration's buffer. -/
theorem axrEmitStep_frame (b s0 s1 : List Nat) (hb : b.length ≤ 65527) :
    axrEmitStep (mkFrame (evens b) ++ s0) (mkFrame (odds b) ++ s1)
      = some (b, s0, s1) := by
  have he : (evens b).length < 65536 := by
    have := evens_length_le b; omega
  have ho : (odds b).length < 65536 := by
    have := odds_length b; omega
  rw [axrEmitStep, parseFrame_mkFrame _ _ he, parseFrame_mkFrame _ _ ho]
  dsimp only
  cases hbe : b with
  | nil => simp [evens_nil, odds]
  | cons x t =>
    rw [← hbe]
    have hne : (evens b).isEmpty = false := by
      rw [hbe, evens_cons]; rfl
    have hlen : (evens b).length + (odds b).length = b.length := by
      rw [evens_length, odds_length]; omega
    by_cases hpar : b.length % 2 = 0
    · have hnlt : ¬ ((odds b).length < (evens b).length) := by
        rw [evens_length, odds_length]; omega
      simp only [hne, Bool.false_eq_true, if_false, hnlt, hlen,
        zipFlat_evens_odds_even b hpar, List.take_length]
    · have hodd : b.length % 2 = 1 := by omega
      have hlt : (odds b).length < (evens b).length := by
        rw [evens_length, odds_length]; omega
      simp only [hne, Bool.false_eq_true, if_false, hlt, if_true, hlen]
      rw [zipFlat_evens_odds_odd b 0 [0, 0, 0] hodd]

/-- Every iteration buffer the transmitter produces fits in a frame. -/
theorem axtIters_bounded (rem input : List Nat) : rem.length ≤ 1 →
    ∀ b ∈ axtIters rem input, b.length ≤ 65527 := by
  induction rem, input using axtIters.induct with
  | case1 rem hr =>
    intro _ b hb
    rw [axtIters, if_pos hr] at hb
    simp at hb
  | case2 rem hr =>
    intro hlen b hb
    rw [axtIters, if_neg hr] at hb
    simp at hb
    rw [hb]
    omega
  | case3 rem h t buf n ih =>
    intro hlen b hb
    rw [axtIters] at hb
    simp only [List.mem_cons] at hb
    rcases hb with hb | hb
    · subst hb
      simp only [List.length_take, List.length_append, List.length_cons,
        axtChunkSize] at hlen ⊢
      omega
    · apply ih _ b hb
      simp only [List.length_drop]
      omega

/-- Concatenating all iteration buffers recovers the carried remainder
followed by the input. -/
theorem axtIters_flatten (rem input : List Nat) :
    (axtIters rem input).flatten = rem ++ input := by
  induction rem, input using axtIters.induct with
  | case1 rem hr =>
    rw [axtIters, if_pos hr]
    have : rem = [] := by simpa using hr
    simp [this]
  | case2 rem hr =>
    rw [axtIters, if_neg hr]
    simp
  | case3 rem h t buf n ih =>
    rw [axtIters]
    simp only [List.flatten_cons, ih]
    rw [← List.append_assoc, List.take_append_drop]
    rw [List.append_assoc, List.take_append_drop]

/-- The receiver drain of the framed channel streams of a list of iteration
buffers reproduces their concatenation. -/
theorem axrDrain_frames (iters : List (List Nat))
    (hb : ∀ b ∈ iters, b.length ≤ 65527) :
    axrDrain iters.length
      ((iters.map (fun b => mkFrame (evens b))).flatten)
      ((iters.map (fun b => mkFrame (odds b))).flatten)
      = iters.flatten := by
  induction iters with
  | nil => simp [axrDrain]
  | cons b bs ih =>
    simp only [List.map_cons, List.flatten_cons, List.length_cons]
    rw [axrDrain, axrEmitStep_frame b _ _ (hb b (by simp))]
    have hrec := ih (fun x hx => hb x (by simp [hx]))
    simp [hrec]

/-- C1: composing the audio transmitter's round-robin split plus Channel
Frame wrapping with the receiver's `emit` parsing, padding, re-interleave
and truncation reconstructs the original byte sequence on standard output
(channels assumed to deliver framed bytes unmodified and in order). -/
theorem audio_framing_roundtrip (B : List Nat) :
    axrDrain (axtIters [] B).length (axtStream B).1 (axtStream B).2 = B := by
  have hb := axtIters_bounded [] B (by simp)
  simp only [axtStream]
  rw [axrDrain_frames _ hb, axtIters_flatten]
  simp

/-! ## Audio receiver volume history (C8)

Translated from `src/ax/axr.py` lines 127-131:
`vhist = vhist[-5:] + [peak]; vol = max(vhist)`.  Peak readings are
modelled as rationals (the Python values are floats; only `max` is ever
applied to them). -/

/-- One iteration's history update: keep the last 5 entries of the previous
history and append the new peak (`vhist[-5:] + [peak]`). -/
def vhistStep (h : List ℚ) (peak : ℚ) : List ℚ :=
  h.drop (h.length - 5) ++ [peak]

/-- The history after processing a sequence of per-iteration peaks,
starting from the empty initial `vhist = []`. -/
def vhistRun (peaks : List ℚ) : List ℚ := peaks.foldl vhistStep []

/-- Python's `max()` on a list (the receiver only applies it to the
nonempty history; the empty case is arbitrary). -/
def pyMax : List ℚ → ℚ
  | [] => 0
  | a :: t => t.foldl max a

/-- C8 counterexample: after six iterations with peaks `1,0,0,0,0,0` the
history holds six entries (not at most five) and the volume compared
against the silence threshold is `max(history) = 1`, while the maximum of
the five most recent peaks is `0`.  The claim that the history holds
exactly the 5 most recent readings is therefore false. -/
theorem axr_vhist_counterexample :
    (vhistRun [(1 : ℚ), 0, 0, 0, 0, 0]).length = 6
    ∧ pyMax (vhistRun [(1 : ℚ), 0, 0, 0, 0, 0]) = 1
    ∧ pyMax (([(1 : ℚ), 0, 0, 0, 0, 0]).drop (6 - 5)) = 0 := by
  refine ⟨?_, ?_, ?_⟩ <;> norm_num [vhistRun, vhistStep, pyMax, List.foldl]

/-- C8 amended: the rolling history holds the (up to) six most recent
peaks — the last five of the previous history plus the new reading — so
the displayed volume is the maximum of the six most recent readings. -/
theorem axr_vhist_amended (peaks : List ℚ) :
    vhistRun peaks = peaks.drop (peaks.length - 6)
    ∧ pyMax (vhistRun peaks) = pyMax (peaks.drop (peaks.length - 6)) := by
  have main : ∀ ps : List ℚ, vhistRun ps = ps.drop (ps.length - 6) := by
    intro ps
    induction ps using List.reverseRecOn with
    | nil => rfl
    | append_singleton ps p ih =>
      have h1 : vhistRun (ps ++ [p]) = vhistStep (vhistRun ps) p := by
        simp [vhistRun, List.foldl_append]
      rw [h1, ih, vhistStep]
      rw [List.drop_drop, List.length_drop]
      have h2 : (ps ++ [p]).drop ((ps ++ [p]).length - 6)
          = ps.drop (ps.length - 5) ++ [p] := by
        rw [List.drop_append_of_le_length (by simp)]
        congr 2
        simp only [List.length_append, List.length_singleton]
        omega
      rw [h2]
      have h3 : ps.length - 6 + (ps.length - (ps.length - 6) - 5)
          = ps.length - 5 := by omega
      rw [h3]
  exact ⟨main peaks, by rw [main peaks]⟩

/-! ## Debug joiner (C9)

Translated from `src/ax/dbg/mux.py`: read 1024 bytes from each of the `N`
input files in lock-step, interleave the buffers byte-by-byte via
`zip(*bs)` and write to standard output.  When any read returns empty the
loop sets `bs = None` and breaks out of the `for`; the following
`zip(*bs)` then raises `TypeError` (unpacking `None`), which is the `while
True` loop's only exit: the interpreter terminates with a traceback and
exit code 1. -/

/-- Python's `zip(*bs)`: the list of "rows", truncated at the shortest
input list (`zip()` of zero iterables is empty). -/
def zipN : List (List α) → List (List α)
  | [] => []
  | [l] => l.map (fun x => [x])
  | l :: l2 :: ls => ((l.zip (zipN (l2 :: ls))).map fun p => p.1 :: p.2)

/-- Length of the shortest list (`0` for no lists). -/
def minLen : List (List α) → Nat
  | [] => 0
  | [l] => l.length
  | l :: l2 :: ls => min l.length (minLen (l2 :: ls))

/-- The joiner's termination condition: the uncaught `TypeError` raised by
`zip(*None)`, which makes the interpreter exit with a traceback. -/
inductive MuxExit
  | typeError
deriving DecidableEq

/-- Process exit code: an uncaught exception terminates CPython with
exit code 1. -/
def muxExitCode : MuxExit → Nat
  | .typeError => 1

/-- The lock-step `read(1024)` pass over all files: `none` when some file
returns an empty read (the `bs = None; break` path), otherwise the read
buffers and the files' remaining contents. -/
def muxReads : List (List Nat) → Option (List (List Nat) × List (List Nat))
  | [] => some ([], [])
  | f :: fs =>
    if (f.take 1024).isEmpty then none
    else match muxReads fs with
      | none => none
      | some (bs, rests) => some (f.take 1024 :: bs, f.drop 1024 :: rests)

/-- The joiner's `while True` loop with fuel (the loop has no normal exit;
exhausted fuel models a still-running process and yields no exit marker). -/
def muxRun : Nat → List (List Nat) → List Nat × Option MuxExit
  | 0, _ => ([], none)
  | fuel + 1, files =>
    match muxReads files with
    | none => ([], some .typeError)
    | some (bs, rests) =>
      let dec := (zipN bs).flatten
      let r := muxRun fuel rests
      (dec ++ r.1, r.2)

theorem minLen_le_length (files : List (List α)) :
    ∀ f ∈ files, minLen files ≤ f.length := by
  induction files with
  | nil => simp
  | cons l tl ih =>
    intro f hf
    cases tl with
    | nil =>
      simp at hf
      simp [minLen, hf]
    | cons l2 ls =>
      rw [show minLen (l :: l2 :: ls) = min l.length (minLen (l2 :: ls)) from rfl]
      rcases List.mem_cons.mp hf with h | h
      · subst h; omega
      · have := ih f h; omega

theorem minLen_eq_zero (files : List (List α)) (h : [] ∈ files) :
    minLen files = 0 := by
  have := minLen_le_length files [] h
  simpa using this

/-- `zipN` computed by row index: row `i` pairs up element `i` of every
list, for `i` below the shortest length. -/
theorem zipN_eq_rows [Inhabited α] (files : List (List α)) :
    zipN files = (List.range (minLen files)).map
      (fun i => files.map (fun f => f.getD i default)) := by
  induction files with
  | nil => simp [zipN, minLen]
  | cons l tl ih =>
    cases tl with
    | nil =>
      apply List.ext_getElem
      · simp [zipN, minLen]
      · intro i h1 h2
        simp only [zipN, List.length_map] at h1
        simp only [zipN, List.getElem_map, List.getElem_range, List.map_cons,
          List.map_nil]
        rw [List.getD_eq_getElem _ _ h1]
    | cons l2 ls =>
      rw [show zipN (l :: l2 :: ls)
          = ((l.zip (zipN (l2 :: ls))).map fun p => p.1 :: p.2) from rfl]
      rw [ih]
      apply List.ext_getElem
      · simp [show minLen (l :: l2 :: ls)
            = min l.length (minLen (l2 :: ls)) from rfl]
      · intro i h1 h2
        simp only [List.length_map, List.length_zip, List.length_range] at h1
        simp only [lt_inf_iff] at h1
        simp only [List.getElem_map, List.getElem_zip, List.getElem_range,
          List.map_cons]
        rw [List.getD_eq_getElem l _ h1.1]

theorem minLen_take (k : Nat) (files : List (List α)) :
    minLen (files.map (fun f => f.take k)) = min k (minLen files) := by
  induction files with
  | nil => simp [minLen]
  | cons l tl ih =>
    cases tl with
    | nil => simp [minLen, List.length_take]
    | cons l2 ls =>
      simp only [List.map_cons] at ih ⊢
      rw [show minLen (l.take k :: (l2.take k :: (ls.map (fun f => f.take k))))
          = min (l.take k).length
              (minLen (l2.take k :: (ls.map (fun f => f.take k)))) from rfl]
      rw [ih, show minLen (l :: l2 :: ls) = min l.length (minLen (l2 :: ls)) from rfl]
      simp [List.length_take]
      omega

theorem minLen_drop (k : Nat) (files : List (List α)) :
    minLen (files.map (fun f => f.drop k)) = minLen files - k := by
  induction files with
  | nil => simp [minLen]
  | cons l tl ih =>
    cases tl with
    | nil => simp [minLen, List.length_drop]
    | cons l2 ls =>
      simp only [List.map_cons] at ih ⊢
      rw [show minLen (l.drop k :: (l2.drop k :: (ls.map (fun f => f.drop k))))
          = min (l.drop k).length
              (minLen (l2.drop k :: (ls.map (fun f => f.drop k)))) from rfl]
      rw [ih, show minLen (l :: l2 :: ls) = min l.length (minLen (l2 :: ls)) from rfl]
      simp [List.length_drop]
      omega

/-- Splitting every input list at position `k` splits the zip rows at row
`k`: the interleave of whole files equals the interleave of their first
`k`-byte reads followed by the interleave of their remainders. -/
theorem zipN_take_drop [Inhabited α] (files : List (List α)) (k : Nat) :
    zipN files
      = zipN (files.map (fun f => f.take k))
        ++ zipN (files.map (fun f => f.drop k)) := by
  rw [zipN_eq_rows, zipN_eq_rows, zipN_eq_rows, minLen_take, minLen_drop]
  by_cases hk : minLen files ≤ k
  · rw [show min k (minLen files) = minLen files by omega,
      show minLen files - k = 0 by omega]
    simp only [List.range_zero, List.map_nil, List.append_nil]
    apply List.map_congr_left
    intro i hi
    rw [List.mem_range] at hi
    rw [List.map_map]
    apply List.map_congr_left
    intro f hf
    have hle := minLen_le_length files f hf
    simp only [Function.comp_apply]
    rw [List.getD_eq_getElem _ _ (by omega),
      List.getD_eq_getElem _ _ (by rw [List.length_take]; omega)]
    rw [List.getElem_take]
  · rw [show min k (minLen files) = k by omega]
    rw [show List.range (minLen files)
        = List.range k ++ (List.range (minLen files - k)).map (k + ·) from by
      rw [← List.range_add]; congr 1; omega]
    rw [List.map_append]
    congr 1
    · apply List.map_congr_left
      intro i hi
      rw [List.mem_range] at hi
      rw [List.map_map]
      apply List.map_congr_left
      intro f hf
      have hle := minLen_le_length files f hf
      simp only [Function.comp_apply]
      rw [List.getD_eq_getElem _ _ (by omega),
        List.getD_eq_getElem _ _ (by rw [List.length_take]; omega)]
      rw [List.getElem_take]
    · rw [List.map_map]
      apply List.map_congr_left
      intro j hj
      rw [List.mem_range] at hj
      rw [List.map_map]
      simp only [Function.comp_apply]
      apply List.map_congr_left
      intro f hf
      have hle := minLen_le_length files f hf
      simp only [Function.comp_apply]
      rw [List.getD_eq_getElem _ _ (by omega),
        List.getD_eq_getElem _ _ (by rw [List.length_drop]; omega)]
      rw [List.getElem_drop]

/-- If some input file is empty, the lock-step read pass fails. -/
theorem muxReads_none (files : List (List Nat)) (h : [] ∈ files) :
    muxReads files = none := by
  induction files with
  | nil => simp at h
  | cons f fs ih =>
    rcases List.mem_cons.mp h with h1 | h1
    · rw [muxReads, if_pos (by simp [← h1])]
    · rw [muxReads]
      by_cases hf : (f.take 1024).isEmpty
      · rw [if_pos hf]
      · rw [if_neg hf, ih h1]

/-- If every input file is nonempty, the lock-step read pass returns each
file's first 1024 bytes and each file's remainder. -/
theorem muxReads_some (files : List (List Nat)) (h : ∀ f ∈ files, f ≠ []) :
    muxReads files
      = some (files.map (fun f => f.take 1024), files.map (fun f => f.drop 1024)) := by
  induction files with
  | nil => rfl
  | cons f fs ih =>
    have hf : ¬ (f.take 1024).isEmpty := by
      have := h f (by simp)
      cases f with
      | nil => simp at this
      | cons x t => simp [List.take_cons]
    rw [muxReads, if_neg hf, ih (fun g hg => h g (by simp [hg]))]
    simp

/-- Total number of buffered bytes across all input files. -/
def totalLen (files : List (List Nat)) : Nat := (files.map List.length).sum

theorem totalLen_drop_le (k : Nat) (files : List (List Nat)) :
    totalLen (files.map (fun f => f.drop k)) ≤ totalLen files := by
  induction files with
  | nil => simp [totalLen]
  | cons f fs ih =>
    simp only [totalLen, List.map_cons, List.sum_cons, List.map_map] at ih ⊢
    have : (f.drop k).length ≤ f.length := by simp
    omega

/-- The joiner always terminates through the `TypeError` crash and its
output is the byte-by-byte interleave of the files truncated at the
shortest file. -/
theorem muxRun_spec : ∀ (fuel : Nat) (files : List (List Nat)), files ≠ [] →
    totalLen files < fuel →
    muxRun fuel files = ((zipN files).flatten, some MuxExit.typeError) := by
  intro fuel
  induction fuel with
  | zero => intro files _ h; omega
  | succ fuel ih =>
    intro files hne hlen
    by_cases hemp : ∃ f ∈ files, f = []
    · obtain ⟨f, hf, rfl⟩ := hemp
      rw [muxRun, muxReads_none files hf]
      rw [zipN_eq_rows, minLen_eq_zero files hf]
      simp
    · push_neg at hemp
      rw [muxRun, muxReads_some files hemp]
      have hlt : totalLen (files.map (fun f => f.drop 1024)) < totalLen files := by
        cases files with
        | nil => simp at hne
        | cons f fs =>
          have hf0 : f ≠ [] := hemp f (by simp)
          have h1 : (f.drop 1024).length < f.length := by
            rw [List.length_drop]
            have : 0 < f.length := List.length_pos.mpr hf0
            omega
          have h2 := totalLen_drop_le 1024 fs
          simp only [totalLen, List.map_cons, List.sum_cons, List.map_map] at h2 ⊢
          omega
      have hrec := ih (files.map (fun f => f.drop 1024)) (by simp [hne]) (by omega)
      simp only [hrec]
      rw [zipN_take_drop files 1024]
      simp

/-- C9 counterexample: on input files `[1]` and `[2]` the joiner writes the
interleave `[1, 2]` and then terminates through the uncaught `TypeError`
(exit code 1), not as a normal completion with exit code 0. -/
theorem mux_exit_counterexample :
    muxRun 2 [[1], [2]] = ([1, 2], some MuxExit.typeError)
    ∧ muxExitCode MuxExit.typeError ≠ 0 := by
  constructor
  · rfl
  · decide

/-- C9 amended: when any input file reaches end of file, the joiner has
written exactly the byte-by-byte interleave of the input files truncated at
the shortest file (no padding, no flushing of longer files), but it
terminates through an uncaught `TypeError` (exit code 1), not as a normal
completion with exit code 0. -/
theorem mux_joiner_amended (files : List (List Nat)) (fuel : Nat)
    (h1 : files ≠ []) (h2 : totalLen files < fuel) :
    muxRun fuel files = ((zipN files).flatten, some MuxExit.typeError)
    ∧ muxExitCode MuxExit.typeError = 1 :=
  ⟨muxRun_spec fuel files h1 h2, rfl⟩

/-- Witness for `mux_joiner_amended` at two one-byte files. -/
theorem mux_joiner_amended_witness :
    (([[1], [2]] : List (List Nat)) ≠ [] ∧ totalLen [[1], [2]] < 3)
    ∧ (muxRun 3 [[1], [2]] = ((zipN [[1], [2]]).flatten, some MuxExit.typeError)
      ∧ muxExitCode MuxExit.typeError = 1) :=
  ⟨⟨by decide, by decide⟩, mux_joiner_amended [[1], [2]] 3 (by decide) (by decide)⟩

/-! ## SHA-512

Model of Python's `hashlib.sha512` (an external library both `vxt.py` and
`vxr.py` call), implemented to FIPS 180-4.  The round constants and initial
hash values are computed from the fractional parts of the cube/square roots
of the first primes, exactly as the standard defines them; the
implementation matches the standard test vectors for the empty message and
`"abc"`. -/

def M64 : Nat := 2 ^ 64

def rotr64 (x n : Nat) : Nat := ((x >>> n) ||| (x <<< (64 - n))) % M64

def not64 (x : Nat) : Nat := x ^^^ (M64 - 1)

/-- Integer cube root (largest `r` with `r^3 ≤ n`, for `n < 2^210`). -/
def icbrt (n : Nat) : Nat :=
  (List.range 70).foldr (fun i r => let r' := r + 2 ^ i; if r' ^ 3 ≤ n then r' else r) 0

/-- The first 80 primes. -/
def sha512_primes : List Nat :=
  [2, 3, 5, 7, 11, 13, 17, 19, 23, 29, 31, 37, 41, 43, 47, 53, 59, 61, 67, 71,
   73, 79, 83, 89, 97, 101, 103, 107, 109, 113, 127, 131, 137, 139, 149, 151,
   157, 163, 167, 173, 179, 181, 191, 193, 197, 199, 211, 223, 227, 229, 233,
   239, 241, 251, 257, 263, 269, 271, 277, 281, 283, 293, 307, 311, 313, 317,
   331, 337, 347, 349, 353, 359, 367, 373, 379, 383, 389, 397, 401, 409]

/-- Round constants: first 64 bits of the fractional parts of the cube
roots of the first 80 primes. -/
def sha512_K : List Nat := sha512_primes.map (fun p => icbrt (p * 2 ^ 192) % M64)

/-- Initial hash values: first 64 bits of the fractional parts of the
square roots of the first 8 primes. -/
def sha512_H0 : List Nat :=
  (sha512_primes.take 8).map (fun p => Nat.sqrt (p * 2 ^ 128) % M64)

def smallS0 (x : Nat) : Nat := (rotr64 x 1) ^^^ (rotr64 x 8) ^^^ (x >>> 7)

def smallS1 (x : Nat) : Nat := (rotr64 x 19) ^^^ (rotr64 x 61) ^^^ (x >>> 6)

def bigS0 (x : Nat) : Nat := (rotr64 x 28) ^^^ (rotr64 x 34) ^^^ (rotr64 x 39)

def bigS1 (x : Nat) : Nat := (rotr64 x 14) ^^^ (rotr64 x 18) ^^^ (rotr64 x 41)

def chF (x y z : Nat) : Nat := (x &&& y) ^^^ (not64 x &&& z)

def majF (x y z : Nat) : Nat := (x &&& y) ^^^ (x &&& z) ^^^ (y &&& z)

structure Sha512State where
  a : Nat
  b : Nat
  c : Nat
  d : Nat
  e : Nat
  f : Nat
  g : Nat
  h : Nat

/-- Extend the 16 block words to the 80-word message schedule. -/
def sha512_extend (block : List Nat) : List Nat :=
  (List.range 64).foldl
    (fun ws _ =>
      let t := ws.length
      let w := (smallS1 (ws.getD (t - 2) 0) + ws.getD (t - 7) 0
        + smallS0 (ws.getD (t - 15) 0) + ws.getD (t - 16) 0) % M64
      ws ++ [w]) block

def sha512_round (st : Sha512State) (kw : Nat × Nat) : Sha512State :=
  let t1 := (st.h + bigS1 st.e + chF st.e st.f st.g + kw.1 + kw.2) % M64
  let t2 := (bigS0 st.a + majF st.a st.b st.c) % M64
  ⟨(t1 + t2) % M64, st.a, st.b, st.c, (st.d + t1) % M64, st.e, st.f, st.g⟩

def sha512_initState : Sha512State :=
  ⟨sha512_H0.getD 0 0, sha512_H0.getD 1 0, sha512_H0.getD 2 0, sha512_H0.getD 3 0,
   sha512_H0.getD 4 0, sha512_H0.getD 5 0, sha512_H0.getD 6 0, sha512_H0.getD 7 0⟩

def sha512_compress (H : Sha512State) (block : List Nat) : Sha512State :=
  let ws := sha512_extend block
  let st := (sha512_K.zip ws).foldl sha512_round H
  ⟨(H.a + st.a) % M64, (H.b + st.b) % M64, (H.c + st.c) % M64, (H.d + st.d) % M64,
   (H.e + st.e) % M64, (H.f + st.f) % M64, (H.g + st.g) % M64, (H.h + st.h) % M64⟩

/-- Big-endian 64-bit words from bytes (full 8-byte groups). -/
def bytesToWords64 : List Nat → List Nat
  | b0 :: b1 :: b2 :: b3 :: b4 :: b5 :: b6 :: b7 :: rest =>
    (((((((b0 * 256 + b1) * 256 + b2) * 256 + b3) * 256 + b4) * 256 + b5) * 256
        + b6) * 256 + b7)
      :: bytesToWords64 rest
  | _ => []

/-- `k`-byte big-endian rendering of `n`. -/
def natToBEBytes (k n : Nat) : List Nat :=
  (List.range k).map (fun i => n / 2 ^ (8 * (k - 1 - i)) % 256)

/-- FIPS 180-4 padding: `0x80`, zeros to 112 mod 128, 16-byte bit length. -/
def sha512_pad (msg : List Nat) : List Nat :=
  let L := msg.length
  msg ++ [0x80] ++ List.replicate ((240 - (L + 1) % 128) % 128) 0
    ++ natToBEBytes 16 (8 * L)

/-- Split into 128-byte blocks (fuel-driven for structural recursion). -/
def blocks128Go : Nat → List Nat → List (List Nat)
  | 0, _ => []
  | _, [] => []
  | fuel + 1, x :: t => ((x :: t).take 128) :: blocks128Go fuel ((x :: t).drop 128)

def blocks128 (l : List Nat) : List (List Nat) := blocks128Go l.length l

def word64ToBytes (n : Nat) : List Nat := natToBEBytes 8 n

/-- SHA-512 digest (64 bytes) of a byte string. -/
def sha512 (msg : List Nat) : List Nat :=
  let final := (blocks128 (sha512_pad msg)).foldl
    (fun H b => sha512_compress H (bytesToWords64 b)) sha512_initState
  word64ToBytes final.a ++ word64ToBytes final.b ++ word64ToBytes final.c
    ++ word64ToBytes final.d ++ word64ToBytes final.e ++ word64ToBytes final.f
    ++ word64ToBytes final.g ++ word64ToBytes final.h

theorem natToBEBytes_length (k n : Nat) : (natToBEBytes k n).length = k := by
  simp [natToBEBytes]

theorem natToBEBytes_lt (k n : Nat) : ∀ b ∈ natToBEBytes k n, b < 256 := by
  intro b hb
  simp only [natToBEBytes, List.mem_map] at hb
  obtain ⟨i, _, rfl⟩ := hb
  exact Nat.mod_lt _ (by norm_num)

theorem sha512_length (msg : List Nat) : (sha512 msg).length = 64 := by
  simp [sha512, natToBEBytes_length, word64ToBytes]

theorem sha512_bytes_lt (msg : List Nat) : ∀ b ∈ sha512 msg, b < 256 := by
  intro b hb
  simp only [sha512, word64ToBytes, List.mem_append] at hb
  rcases hb with ((((((h | h) | h) | h) | h) | h) | h) | h <;>
    exact natToBEBytes_lt _ _ b h

/-! ## Dotmatrix frame checksum (C3)

`bstr2bits` is from `src/vx/vxt.py` lines 78-85 (bytes to bits, most
significant bit first; its inputs are always actual bytes `< 256`),
`bits2bstr` from `src/vx/vxr.py` lines 117-119 (full 8-bit groups only,
remainder dropped).  `addChecksum` is the checksum step of
`Vxt.gen_frame` (`vxt.py` lines 515-522): zero-pad the frame bits to the
frame capacity minus the 4 checksum bytes, hash the ASCII `'0'`/`'1'`
rendering, and prepend the first 32 digest bits.  `vxrFrameAccept` is the
receiver's check (`vxr.py` lines 1138-1148): it compares the hex rendering
of the first 4 sampled bytes against the hex rendering of the first 4
bytes of SHA-512 over the ASCII rendering of everything after bit 32
(hex rendering of 4-byte strings is injective, so the comparison is
modelled directly on the byte lists). -/

def bitN (b : Bool) : Nat := if b then 1 else 0

/-- One byte as 8 bits, most significant first (`bin(x)[2:].zfill(8)`). -/
def byteToBits (b : Nat) : List Bool :=
  [b / 128 % 2 == 1, b / 64 % 2 == 1, b / 32 % 2 == 1, b / 16 % 2 == 1,
   b / 8 % 2 == 1, b / 4 % 2 == 1, b / 2 % 2 == 1, b % 2 == 1]

/-- `bstr2bits`: a byte string as a bit list. -/
def bstr2bits (buf : List Nat) : List Bool := buf.flatMap byteToBits

/-- `bits2bstr`: every full 8-bit group as one byte (`int(bits, 2)`). -/
def bits2bstr : List Bool → List Nat
  | b0 :: b1 :: b2 :: b3 :: b4 :: b5 :: b6 :: b7 :: rest =>
    (((((((bitN b0 * 2 + bitN b1) * 2 + bitN b2) * 2 + bitN b3) * 2 + bitN b4) * 2
        + bitN b5) * 2 + bitN b6) * 2 + bitN b7) :: bits2bstr rest
  | _ => []

/-- The ASCII `'0'`/`'1'` rendering hashed by both sides
(`"".join("1" if x else "0" for ...).encode("utf-8")`). -/
def bitsToAscii (bits : List Bool) : List Nat :=
  bits.map (fun b => if b then 49 else 48)

/-- The checksum step of `Vxt.gen_frame`: zero-pad `bits` to the frame
capacity less the 4 checksum bytes, then prepend the first 32 bits of
SHA-512 over the ASCII rendering. -/
def addChecksum (bits : List Bool) (w h : Nat) (halfs : Bool) : List Bool :=
  let pad := (w * h - 1) * (if halfs then 2 else 1) - (bits.length + 4 * 8)
  let padded := bits ++ List.replicate pad false
  bstr2bits ((sha512 (bitsToAscii padded)).take 4) ++ padded

/-- The receiver's per-frame checksum verification: the captured frame is
accepted exactly when the first 32 bits equal the recomputed checksum; a
mismatch is logged and the frame discarded (`continue`). -/
def vxrFrameAccept (bits : List Bool) : Bool :=
  decide (bits2bstr (bits.take 32) = (sha512 (bitsToAscii (bits.drop 32))).take 4)

theorem bits2bstr_byte (b : Nat) (hb : b < 256) (rest : List Bool) :
    bits2bstr (byteToBits b ++ rest) = b :: bits2bstr rest := by
  have hbit : ∀ n : Nat, bitN (n % 2 == 1) = n % 2 := by
    intro n
    rcases Nat.mod_two_eq_zero_or_one n with h | h <;> simp [bitN, h]
  simp only [byteToBits, List.cons_append, List.nil_append, bits2bstr]
  congr 1
  rw [hbit (b / 128), hbit (b / 64), hbit (b / 32), hbit (b / 16), hbit (b / 8),
    hbit (b / 4), hbit (b / 2), hbit b]
  omega

/-- Bytes-to-bits-to-bytes round trip (for actual byte values). -/
theorem bits2bstr_bstr2bits (l : List Nat) (hl : ∀ b ∈ l, b < 256) :
    bits2bstr (bstr2bits l) = l := by
  induction l with
  | nil => rfl
  | cons b t ih =>
    rw [bstr2bits, List.flatMap_cons]
    rw [show t.flatMap byteToBits = bstr2bits t from rfl]
    rw [bits2bstr_byte b (hl b (by simp)) (bstr2bits t)]
    rw [ih (fun x hx => hl x (by simp [hx]))]

theorem bstr2bits_length (l : List Nat) : (bstr2bits l).length = 8 * l.length := by
  induction l with
  | nil => rfl
  | cons b t ih =>
    rw [bstr2bits, List.flatMap_cons]
    simp only [List.length_append, byteToBits, List.length_cons, List.length_nil]
    rw [bstr2bits] at ih
    omega

/-- C3: a generated frame is its 32 checksum bits followed by the padded
frame bits, the checksum bits are the first 4 bytes of SHA-512 over the
ASCII `'0'`/`'1'` rendering of everything after bit 32, the receiver
accepts every such frame, and the receiver accepts a captured frame iff
the claimed and recomputed 32-bit checksums are equal. -/
theorem dotmatrix_frame_checksum (content : List Bool) (w h : Nat) (halfs : Bool) :
    (addChecksum content w h halfs).take 32
      = bstr2bits ((sha512
          (bitsToAscii ((addChecksum content w h halfs).drop 32))).take 4)
    ∧ vxrFrameAccept (addChecksum content w h halfs) = true
    ∧ (∀ bits : List Bool, vxrFrameAccept bits = true
        ↔ bits2bstr (bits.take 32)
            = (sha512 (bitsToAscii (bits.drop 32))).take 4) := by
  set padded := content ++ List.replicate
    ((w * h - 1) * (if halfs then 2 else 1) - (content.length + 4 * 8)) false
    with hpad
  have hcsum_len : (bstr2bits ((sha512 (bitsToAscii padded)).take 4)).length = 32 := by
    rw [bstr2bits_length, List.length_take, sha512_length]
    norm_num
  have hframe : addChecksum content w h halfs
      = bstr2bits ((sha512 (bitsToAscii padded)).take 4) ++ padded := rfl
  have htake : (addChecksum content w h halfs).take 32
      = bstr2bits ((sha512 (bitsToAscii padded)).take 4) := by
    rw [hframe, ← hcsum_len, List.take_left]
  have hdrop : (addChecksum content w h halfs).drop 32 = padded := by
    rw [hframe, ← hcsum_len, List.drop_left]
  refine ⟨?_, ?_, ?_⟩
  · rw [htake, hdrop]
  · rw [vxrFrameAccept, htake, hdrop]
    rw [bits2bstr_bstr2bits _ (fun x hx =>
      sha512_bytes_lt (bitsToAscii padded) x (List.mem_of_mem_take hx))]
    simp
  · intro bits
    rw [vxrFrameAccept]
    exact decide_eq_true_iff

/-! ## Streaming base64 (C6)

`streamB64` is translated from `StreamBase64.collect` in `src/kx/kxt.py`
lines 367-403: buffer input, encode only whole 3-byte groups while the
stream is live, and encode the remaining tail (with padding) once at end
of stream.  `b64encode` models Python's `base64.b64encode` (an external
library): standard RFC 4648 base64 with `'='` padding. -/

/-- The base64 alphabet `A-Z a-z 0-9 + /` as ASCII codes. -/
def b64alphabet : List Nat :=
  (List.range 26).map (65 + ·) ++ (List.range 26).map (97 + ·)
    ++ (List.range 10).map (48 + ·) ++ [43, 47]

def b64char (n : Nat) : Nat := b64alphabet.getD n 0

/-- Modelled from the spec: the standard base64 encoding (with padding)
computed by Python's `base64.b64encode`. -/
def b64encode : List Nat → List Nat
  | a :: b :: c :: rest =>
    let n := a * 65536 + b * 256 + c
    b64char (n / 262144) :: b64char (n / 4096 % 64) :: b64char (n / 64 % 64)
      :: b64char (n % 64) :: b64encode rest
  | [a, b] =>
    let n := a * 1024 + b * 4
    [b64char (n / 4096), b64char (n / 64 % 64), b64char (n % 64), 61]
  | [a] =>
    let n := a * 16
    [b64char (n / 64), b64char (n % 64), 61, 61]
  | [] => []

/-- `StreamBase64.collect`: the chunks yielded for the given input chunk
sequence, starting from carry buffer `buf` (an input of `none` marks end
of stream; here the chunk list simply ends). -/
def streamB64 (buf : List Nat) : List (List Nat) → List (List Nat)
  | [] => [b64encode buf]
  | chunk :: rest =>
    let buf2 := buf ++ chunk
    if buf2.length / 3 = 0 then streamB64 buf2 rest
    else
      b64encode (buf2.take (buf2.length / 3 * 3))
        :: streamB64 (buf2.drop (buf2.length / 3 * 3)) rest

/-- Three-step list induction helper. -/
theorem list_triple_induction {P : List α → Prop} (h0 : P []) (h1 : ∀ a, P [a])
    (h2 : ∀ a b, P [a, b]) (h3 : ∀ a b c t, P t → P (a :: b :: c :: t)) :
    ∀ l, P l := by
  have H : ∀ n (l : List α), l.length ≤ n → P l := by
    intro n
    induction n with
    | zero =>
      intro l hl
      have : l = [] := List.length_eq_zero.mp (by omega)
      simpa [this]
    | succ n ih =>
      intro l hl
      match l with
      | [] => exact h0
      | [a] => exact h1 a
      | [a, b] => exact h2 a b
      | a :: b :: c :: t =>
        apply h3
        apply ih
        simp at hl
        omega
  exact fun l => H l.length l le_rfl

/-- Base64 splits across any boundary that is a multiple of 3 bytes. -/
theorem b64encode_append (x y : List Nat) (hx : x.length % 3 = 0) :
    b64encode (x ++ y) = b64encode x ++ b64encode y := by
  induction x using list_triple_induction with
  | h0 => simp [b64encode]
  | h1 a => simp at hx
  | h2 a b => simp at hx
  | h3 a b c t ih =>
    have ht : t.length % 3 = 0 := by simp at hx; omega
    simp only [List.cons_append, b64encode, List.append_eq]
    rw [ih ht]

theorem b64char_ne_pad (n : Nat) : b64char n ≠ 61 := by
  unfold b64char
  by_cases h : n < b64alphabet.length
  · have hmem : b64alphabet.getD n 0 ∈ b64alphabet := by
      rw [List.getD_eq_getElem _ _ h]
      exact List.getElem_mem h
    have hall : ∀ c ∈ b64alphabet, c ≠ 61 := by decide
    exact hall _ hmem
  · rw [List.getD_eq_default _ _ (by omega)]
    norm_num

/-- Encodings of whole 3-byte groups never contain the padding char. -/
theorem b64encode_no_pad (x : List Nat) (hx : x.length % 3 = 0) :
    (61 : Nat) ∉ b64encode x := by
  induction x using list_triple_induction with
  | h0 => simp [b64encode]
  | h1 a => simp at hx
  | h2 a b => simp at hx
  | h3 a b c t ih =>
    have ht : t.length % 3 = 0 := by simp at hx; omega
    simp only [b64encode, List.mem_cons]
    push_neg
    exact ⟨(b64char_ne_pad _).symm, (b64char_ne_pad _).symm, (b64char_ne_pad _).symm,
      (b64char_ne_pad _).symm, ih ht⟩

theorem streamB64_ne_nil (buf : List Nat) (chunks : List (List Nat)) :
    streamB64 buf chunks ≠ [] := by
  induction chunks generalizing buf with
  | nil => simp [streamB64]
  | cons c rest ih =>
    rw [streamB64]
    split
    · exact ih _
    · simp

theorem streamB64_flatten (chunks : List (List Nat)) : ∀ buf : List Nat,
    (streamB64 buf chunks).flatten = b64encode (buf ++ chunks.flatten) := by
  induction chunks with
  | nil => intro buf; simp [streamB64]
  | cons c rest ih =>
    intro buf
    rw [streamB64]
    split
    · rw [ih]
      simp
    · simp only [List.flatten_cons]
      rw [ih]
      rw [← b64encode_append _ _ (by
        rw [List.length_take]
        have : (buf ++ c).length / 3 * 3 ≤ (buf ++ c).length :=
          Nat.div_mul_le_self _ _
        rw [min_eq_left this]
        omega)]
      rw [← List.append_assoc, List.take_append_drop]
      simp

theorem streamB64_no_early_pad (chunks : List (List Nat)) : ∀ buf : List Nat,
    ∀ out ∈ (streamB64 buf chunks).dropLast, (61 : Nat) ∉ out := by
  induction chunks with
  | nil => intro buf out hout; simp [streamB64] at hout
  | cons c rest ih =>
    intro buf out hout
    rw [streamB64] at hout
    split at hout
    · exact ih _ out hout
    · rw [List.dropLast_cons_of_ne_nil (streamB64_ne_nil _ _)] at hout
      rcases List.mem_cons.mp hout with h | h
      · subst h
        apply b64encode_no_pad
        rw [List.length_take]
        have hle : (buf ++ c).length / 3 * 3 ≤ (buf ++ c).length :=
          Nat.div_mul_le_self _ _
        rw [min_eq_left hle]
        omega
      · exact ih _ out h

/-- C6: concatenating all chunks yielded by the streaming base64 stage
equals the standard base64 encoding of the whole input, for every way of
splitting the input into chunks; no padding character appears before the
final chunk (the tail is encoded with padding exactly once, at end of
stream). -/
theorem base64_streaming_equiv (chunks : List (List Nat)) :
    (streamB64 [] chunks).flatten = b64encode chunks.flatten
    ∧ ∀ out ∈ (streamB64 [] chunks).dropLast, (61 : Nat) ∉ out :=
  ⟨by simpa using streamB64_flatten chunks [],
   streamB64_no_early_pad chunks []⟩

/-! ## Streaming gzip (C5)

`streamGzip` is translated from `StreamGzip.collect` in `src/kx/kxt.py`
lines 322-364: a fixed 10-byte header, a raw-deflate body produced by
`zlib.compressobj(9, zlib.DEFLATED, -zlib.MAX_WBITS, ...)`, and a trailer
of little-endian CRC-32 (accumulated chunk by chunk with `zlib.crc32(buf,
crc)`) followed by the little-endian input length mod 2^32.  `zlib`'s
compressor is an external library; it is modelled at its interface as a
valid RFC 1951 raw-deflate stream — one final fixed-Huffman block of
literal codes (`deflateFixed`), with all compressed output produced at
`flush()` (zlib is free to buffer `compress()` output, so the concatenated
byte stream is the same).  `gunzip`/`inflateRaw` — modelled from the spec:
a standard RFC 1952/1951 decoder for the streams this stage emits. -/

/-- `struct.pack("<L", n)` (callers guarantee `n < 2^32`). -/
def le32 (n : Nat) : List Nat :=
  [n % 256, n / 256 % 256, n / 65536 % 256, n / 16777216 % 256]

/-- One bit step of reflected CRC-32 with polynomial `0xEDB88320`. -/
def crc32_bitstep (c : Nat) : Nat :=
  if c % 2 = 1 then (c / 2) ^^^ 0xEDB88320 else c / 2

def crc32_byte (c b : Nat) : Nat :=
  (List.range 8).foldl (fun c _ => crc32_bitstep c) (c ^^^ b)

def crc32_update (c : Nat) (buf : List Nat) : Nat := buf.foldl crc32_byte c

/-- `zlib.crc32(buf, prev)`: standard CRC-32 with pre/post inversion. -/
def crc32 (buf : List Nat) (prev : Nat) : Nat :=
  (crc32_update (prev ^^^ 0xFFFFFFFF) buf) ^^^ 0xFFFFFFFF

/-- `k` bits of `n`, most significant first. -/
def natBitsMSB (k n : Nat) : List Bool :=
  (List.range k).map (fun i => n / 2 ^ (k - 1 - i) % 2 == 1)

/-- Value of a bit list read most-significant-first. -/
def natValMSB (bits : List Bool) : Nat :=
  bits.foldl (fun acc b => acc * 2 + bitN b) 0

/-- The RFC 1951 fixed Huffman code of a literal byte (MSB-first code
bits): 8 bits `0x30 + b` for `b < 144`, 9 bits `0x190 + (b - 144)` above. -/
def fixedLitCode (b : Nat) : List Bool :=
  if b < 144 then natBitsMSB 8 (0x30 + b) else natBitsMSB 9 (0x190 + (b - 144))

/-- The deflate bit stream: final-block flag, fixed-Huffman block type
(`01`, sent low bit first), the literal codes, and the 7-bit end-of-block
code 256. -/
def deflateFixedBits (data : List Nat) : List Bool :=
  true :: true :: false :: (data.flatMap fixedLitCode ++ List.replicate 7 false)

/-- Value of up to 8 bits read least-significant-first. -/
def bitsValLSB (bits : List Bool) : Nat :=
  bits.foldr (fun b acc => bitN b + 2 * acc) 0

/-- Pack a bit stream into bytes, low bit of each byte first, zero-padding
the final byte (deflate's bit packing). -/
def packBitsLSB : List Bool → List Nat
  | [] => []
  | b :: t => bitsValLSB ((b :: t).take 8) :: packBitsLSB ((b :: t).drop 8)
termination_by l => l.length
decreasing_by simp; omega

/-- The modelled raw-deflate output of `zlib` for the buffered input. -/
def deflateFixed (data : List Nat) : List Nat := packBitsLSB (deflateFixedBits data)

def byteToBitsLSB (b : Nat) : List Bool := (List.range 8).map (fun i => b / 2 ^ i % 2 == 1)

def unpackBitsLSB (bytes : List Nat) : List Bool := bytes.flatMap byteToBitsLSB

/-- Modelled from the spec: a standard inflate for the streams the
modelled compressor produces — one final fixed-Huffman block of literal
codes ended by the end-of-block code (length/distance codes, which the
modelled compressor never emits, are rejected). -/
def inflateLits : Nat → List Bool → Option (List Nat)
  | 0, _ => none
  | fuel + 1, bits =>
    if bits.length < 7 then none
    else if natValMSB (bits.take 7) = 0 then some []
    else if bits.length < 8 then none
    else
      let c8 := natValMSB (bits.take 8)
      if 0x30 ≤ c8 ∧ c8 ≤ 0xBF then
        match inflateLits fuel (bits.drop 8) with
        | none => none
        | some rest => some ((c8 - 0x30) :: rest)
      else if bits.length < 9 then none
      else
        let c9 := natValMSB (bits.take 9)
        if 0x190 ≤ c9 ∧ c9 ≤ 0x1FF then
          match inflateLits fuel (bits.drop 9) with
          | none => none
          | some rest => some ((144 + (c9 - 0x190)) :: rest)
        else none

/-- Modelled from the spec: raw-deflate decode of the supported subset. -/
def inflateRaw (bytes : List Nat) : Option (List Nat) :=
  match unpackBitsLSB bytes with
  | true :: true :: false :: rest => inflateLits (rest.length + 1) rest
  | _ => none

/-- Modelled from the spec: a standard RFC 1952 gzip decoder for streams
with the header this stage writes (`FLG = 0`, so no optional fields): it
checks the magic/method bytes, inflates the raw-deflate body, and checks
the CRC-32/length trailer. -/
def gunzip (stream : List Nat) : Option (List Nat) :=
  match stream with
  | 0x1F :: 0x8B :: 8 :: 0 :: _ :: _ :: _ :: _ :: _ :: _ :: rest =>
    let body := rest.take (rest.length - 8)
    let trailer := rest.drop (rest.length - 8)
    match inflateRaw body with
    | none => none
    | some data =>
      if trailer = le32 (crc32 data 0) ++ le32 (data.length % 2 ^ 32) then some data
      else none
  | _ => none

/-- The 10-byte gzip header emitted first (`kxt.py` lines 334-340). -/
def gzipHeader (ts : Nat) : List Nat :=
  [0x1F, 0x8B, 0x08, 0x00] ++ le32 ts ++ [0x02, 0xFF]

/-- `StreamGzip.collect`: header, the (buffered) compressed body at flush,
and the CRC-32/length trailer, with the CRC and length accumulated chunk
by chunk exactly as the loop does. -/
def streamGzip (ts : Nat) (chunks : List (List Nat)) : List (List Nat) :=
  let st := chunks.foldl
    (fun (st : Nat × Nat × List Nat) buf =>
      (crc32 buf st.1, st.2.1 + buf.length, st.2.2 ++ buf))
    (0, 0, [])
  [gzipHeader ts, deflateFixed st.2.2 ++ le32 st.1 ++ le32 (st.2.1 % 2 ^ 32)]

theorem bitsValLSB_lt (l : List Bool) : bitsValLSB l < 2 ^ l.length := by
  induction l with
  | nil => simp [bitsValLSB]
  | cons b t ih =>
    simp only [bitsValLSB, List.foldr_cons, List.length_cons] at *
    have hb : bitN b ≤ 1 := by cases b <;> simp [bitN]
    have : (2:Nat) ^ (t.length + 1) = 2 * 2 ^ t.length := by ring
    omega

theorem bitsValLSB_div (l : List Bool) : ∀ i, i < l.length →
    bitsValLSB l / 2 ^ i % 2 = bitN (l.getD i false) := by
  induction l with
  | nil => simp
  | cons b t ih =>
    intro i hi
    cases i with
    | zero =>
      simp only [bitsValLSB, List.foldr_cons, pow_zero, Nat.div_one, List.getD_cons_zero]
      have hb : bitN b ≤ 1 := by cases b <;> simp [bitN]
      omega
    | succ i =>
      simp only [List.length_cons] at hi
      have hstep : bitsValLSB (b :: t) / 2 ^ (i + 1) = bitsValLSB t / 2 ^ i := by
        have : bitsValLSB (b :: t) = bitN b + 2 * bitsValLSB t := by
          simp [bitsValLSB]
        rw [this, pow_succ, mul_comm ((2:Nat) ^ i) 2, ← Nat.div_div_eq_div_mul]
        congr 1
        have hb : bitN b ≤ 1 := by cases b <;> simp [bitN]
        omega
      rw [hstep, List.getD_cons_succ]
      exact ih i (by omega)

/-- Unpacking a packed byte recovers the bits, zero-padded to 8. -/
theorem byteToBitsLSB_bitsValLSB (l : List Bool) (hl : l.length ≤ 8) :
    byteToBitsLSB (bitsValLSB l) = l ++ List.replicate (8 - l.length) false := by
  apply List.ext_getElem
  · simp [byteToBitsLSB]
    omega
  · intro i h1 h2
    simp only [byteToBitsLSB, List.getElem_map, List.getElem_range]
    simp only [byteToBitsLSB, List.length_map, List.length_range] at h1
    by_cases hi : i < l.length
    · rw [List.getElem_append_left hi]
      rw [bitsValLSB_div l i hi]
      rw [List.getD_eq_getElem _ _ hi]
      cases hget : l[i] <;> simp [bitN]
    · rw [List.getElem_append_right (by omega)]
      simp only [List.getElem_replicate]
      have hv : bitsValLSB l < 2 ^ i := by
        have := bitsValLSB_lt l
        exact lt_of_lt_of_le this (Nat.pow_le_pow_right (by norm_num) (by omega))
      rw [Nat.div_eq_of_lt hv]
      simp

/-- Unpacking the packed bit stream yields the bits plus the final byte's
zero padding. -/
theorem unpack_pack (bits : List Bool) :
    unpackBitsLSB (packBitsLSB bits)
      = bits ++ List.replicate ((8 - bits.length % 8) % 8) false := by
  induction bits using packBitsLSB.induct with
  | case1 => simp [packBitsLSB, unpackBitsLSB]
  | case2 b t ih =>
    rw [packBitsLSB, unpackBitsLSB, List.flatMap_cons]
    rw [show (packBitsLSB ((b :: t).drop 8)).flatMap byteToBitsLSB
        = unpackBitsLSB (packBitsLSB ((b :: t).drop 8)) from rfl]
    by_cases hlen : (b :: t).length ≤ 8
    · have hdrop : (b :: t).drop 8 = [] := List.drop_eq_nil_of_le hlen
      have htake : (b :: t).take 8 = b :: t := List.take_of_length_le hlen
      rw [hdrop, htake, packBitsLSB] at *
      rw [byteToBitsLSB_bitsValLSB _ hlen]
      simp only [unpackBitsLSB, List.flatMap_nil, List.append_nil]
      congr 2
      simp only [List.length_cons] at hlen ⊢
      omega
    · push_neg at hlen
      rw [ih]
      have htake8 : ((b :: t).take 8).length = 8 := by
        rw [List.length_take]
        omega
      rw [byteToBitsLSB_bitsValLSB _ (by omega)]
      rw [htake8]
      simp only [Nat.sub_self, List.replicate_zero, List.append_nil]
      rw [← List.append_assoc, List.take_append_drop]
      congr 3
      rw [List.length_drop]
      omega

theorem fixedLitCode_length (b : Nat) : (fixedLitCode b).length = if b < 144 then 8 else 9 := by
  by_cases hb : b < 144 <;> simp [fixedLitCode, natBitsMSB, hb]

theorem natValMSB_replicate_false (m : Nat) :
    natValMSB (List.replicate m false) = 0 := by
  induction m with
  | zero => rfl
  | succ m ih =>
    rw [List.replicate_succ, natValMSB, List.foldl_cons]
    rw [natValMSB] at ih
    simpa [bitN] using ih

set_option maxRecDepth 40000 in
theorem fixedLit_take7_ne : ∀ x < 256, natValMSB ((fixedLitCode x).take 7) ≠ 0 := by
  decide

set_option maxRecDepth 40000 in
theorem fixedLit_val8 : ∀ x < 144, natValMSB ((fixedLitCode x).take 8) = 0x30 + x := by
  decide

set_option maxRecDepth 40000 in
theorem fixedLit_hi_val8 : ∀ x < 256, 144 ≤ x →
    200 ≤ natValMSB ((fixedLitCode x).take 8) := by
  decide

set_option maxRecDepth 40000 in
theorem fixedLit_hi_val9 : ∀ x < 256, 144 ≤ x →
    natValMSB ((fixedLitCode x).take 9) = 0x190 + (x - 144) := by
  decide

/-- Decoding the fixed-Huffman literal stream of the modelled compressor
(followed by the end-of-block code and any zero padding) recovers the
literal bytes. -/
theorem inflateLits_encode : ∀ (data : List Nat) (fuel m : Nat),
    (∀ b ∈ data, b < 256) → data.length < fuel → 7 ≤ m →
    inflateLits fuel (data.flatMap fixedLitCode ++ List.replicate m false)
      = some data := by
  intro data
  induction data with
  | nil =>
    intro fuel m _ hfuel hm
    match fuel, hfuel with
    | fuel + 1, _ =>
      rw [inflateLits]
      rw [List.flatMap_nil, List.nil_append]
      rw [if_neg (by simp; omega)]
      rw [List.take_replicate, show min 7 m = 7 by omega]
      rw [if_pos (natValMSB_replicate_false 7)]
  | cons b rest ih =>
    intro fuel m hbytes hfuel hm
    match fuel, hfuel with
    | fuel + 1, hf =>
      rw [inflateLits]
      rw [List.flatMap_cons, List.append_assoc]
      set tail := rest.flatMap fixedLitCode ++ List.replicate m false with htail
      have hb256 : b < 256 := hbytes b (by simp)
      have hrec : inflateLits fuel tail = some rest := by
        rw [htail]
        exact ih fuel m (fun x hx => hbytes x (by simp [hx]))
          (by simp at hf; omega) hm
      have h7 : (fixedLitCode b ++ tail).take 7 = (fixedLitCode b).take 7 :=
        List.take_append_of_le_length (by rw [fixedLitCode_length]; split <;> omega)
      have h8 : (fixedLitCode b ++ tail).take 8 = (fixedLitCode b).take 8 :=
        List.take_append_of_le_length (by rw [fixedLitCode_length]; split <;> omega)
      by_cases hb : b < 144
      · have hclen : (fixedLitCode b).length = 8 := by
          rw [fixedLitCode_length, if_pos hb]
        have hd8 : (fixedLitCode b ++ tail).drop 8 = tail := by
          rw [← hclen, List.drop_left]
        rw [if_neg (by rw [List.length_append, hclen]; omega)]
        rw [h7, if_neg (fixedLit_take7_ne b hb256)]
        rw [if_neg (by rw [List.length_append, hclen]; omega)]
        rw [h8, fixedLit_val8 b hb]
        rw [if_pos (by omega)]
        rw [hd8, hrec, show 0x30 + b - 0x30 = b from by omega]
      · have hclen : (fixedLitCode b).length = 9 := by
          rw [fixedLitCode_length, if_neg hb]
        have h9 : (fixedLitCode b ++ tail).take 9 = (fixedLitCode b).take 9 :=
          List.take_append_of_le_length (by omega)
        have hd9 : (fixedLitCode b ++ tail).drop 9 = tail := by
          rw [← hclen, List.drop_left]
        have hge : 144 ≤ b := by omega
        rw [if_neg (by rw [List.length_append, hclen]; omega)]
        rw [h7, if_neg (fixedLit_take7_ne b hb256)]
        rw [if_neg (by rw [List.length_append, hclen]; omega)]
        rw [h8]
        rw [if_neg (by have := fixedLit_hi_val8 b hb256 hge; omega)]
        rw [if_neg (by rw [List.length_append, hclen]; omega)]
        rw [h9, fixedLit_hi_val9 b hb256 hge]
        rw [if_pos (by omega)]
        rw [hd9, hrec, show 144 + (0x190 + (b - 144) - 0x190) = b from by omega]

theorem flatMap_fixedLitCode_length (data : List Nat) :
    data.length ≤ (data.flatMap fixedLitCode).length := by
  induction data with
  | nil => simp
  | cons b t ih =>
    rw [List.flatMap_cons, List.length_append]
    have : (fixedLitCode b).length = 8 ∨ (fixedLitCode b).length = 9 := by
      rw [fixedLitCode_length]; split <;> simp
    simp only [List.length_cons]
    omega

/-- The modelled inflate inverts the modelled deflate. -/
theorem inflateRaw_deflateFixed (data : List Nat) (hbytes : ∀ b ∈ data, b < 256) :
    inflateRaw (deflateFixed data) = some data := by
  rw [deflateFixed, inflateRaw, unpack_pack]
  rw [deflateFixedBits]
  simp only [List.cons_append]
  rw [List.append_assoc, ← List.replicate_add]
  set m := 7 + (8 - (true :: true :: false
    :: (data.flatMap fixedLitCode ++ List.replicate 7 false)).length % 8) % 8 with hm
  have hfuel : data.length
      < (data.flatMap fixedLitCode ++ List.replicate m false).length + 1 := by
    rw [List.length_append]
    have := flatMap_fixedLitCode_length data
    omega
  exact inflateLits_encode data _ m hbytes hfuel (by omega)

theorem crc32_append (a b : List Nat) (c : Nat) :
    crc32 b (crc32 a c) = crc32 (a ++ b) c := by
  unfold crc32 crc32_update
  rw [List.foldl_append]
  congr 1
  rw [Nat.xor_assoc, Nat.xor_self, Nat.xor_zero]

theorem streamGzip_fold (chunks : List (List Nat)) : ∀ (c n : Nat) (acc : List Nat),
    chunks.foldl
      (fun (st : Nat × Nat × List Nat) buf =>
        (crc32 buf st.1, st.2.1 + buf.length, st.2.2 ++ buf))
      (c, n, acc)
    = (crc32 chunks.flatten c, n + chunks.flatten.length, acc ++ chunks.flatten) := by
  induction chunks with
  | nil =>
    intro c n acc
    simp only [List.foldl_nil, List.flatten_nil, List.append_nil, List.length_nil,
      Nat.add_zero]
    rw [show crc32 [] c = c from by
      unfold crc32 crc32_update
      rw [List.foldl_nil, Nat.xor_assoc, Nat.xor_self, Nat.xor_zero]]
  | cons x xs ih =>
    intro c n acc
    rw [List.foldl_cons, ih, List.flatten_cons]
    rw [crc32_append, List.length_append, List.append_assoc]
    rw [Nat.add_assoc]

theorem le32_length (n : Nat) : (le32 n).length = 4 := rfl

/-- C5: the streaming gzip stage's concatenated output begins with the
exact 10-byte header `1F 8B 08 00 <LE mtime> 02 FF`, ends with the 8-byte
trailer of little-endian CRC-32 of the uncompressed input followed by the
little-endian input length mod 2^32, and the whole output is an RFC 1952
gzip stream (raw-deflate body) that decompresses byte-for-byte to the
original input. -/
theorem gzip_stream (ts : Nat) (chunks : List (List Nat))
    (_hts : ts < 2 ^ 32) (hbytes : ∀ c ∈ chunks, ∀ b ∈ c, b < 256) :
    ((streamGzip ts chunks).flatten).take 10
        = [0x1F, 0x8B, 0x08, 0x00] ++ le32 ts ++ [0x02, 0xFF]
    ∧ ((streamGzip ts chunks).flatten).drop
          ((streamGzip ts chunks).flatten.length - 8)
        = le32 (crc32 chunks.flatten 0) ++ le32 (chunks.flatten.length % 2 ^ 32)
    ∧ gunzip ((streamGzip ts chunks).flatten) = some chunks.flatten := by
  have hflat : ∀ b ∈ chunks.flatten, b < 256 := by
    intro b hb
    rw [List.mem_flatten] at hb
    obtain ⟨c, hc, hbc⟩ := hb
    exact hbytes c hc b hbc
  have hout : (streamGzip ts chunks).flatten
      = gzipHeader ts ++ (deflateFixed chunks.flatten
          ++ (le32 (crc32 chunks.flatten 0)
              ++ le32 (chunks.flatten.length % 2 ^ 32))) := by
    rw [streamGzip, streamGzip_fold chunks 0 0 []]
    simp
  refine ⟨?_, ?_, ?_⟩
  · rw [hout]
    rw [show (10 : Nat) = (gzipHeader ts).length from by simp [gzipHeader, le32]]
    rw [List.take_left]
    rfl
  · rw [hout, ← List.append_assoc]
    rw [show (gzipHeader ts ++ deflateFixed chunks.flatten
        ++ (le32 (crc32 chunks.flatten 0)
            ++ le32 (chunks.flatten.length % 2 ^ 32))).length - 8
      = (gzipHeader ts ++ deflateFixed chunks.flatten).length from by
        simp only [List.length_append, le32_length]
        omega]
    rw [List.drop_left]
  · rw [hout]
    rw [show gzipHeader ts ++ (deflateFixed chunks.flatten
          ++ (le32 (crc32 chunks.flatten 0)
              ++ le32 (chunks.flatten.length % 2 ^ 32)))
        = 0x1F :: 0x8B :: 8 :: 0 :: (ts % 256) :: (ts / 256 % 256)
          :: (ts / 65536 % 256) :: (ts / 16777216 % 256) :: 0x02 :: 0xFF
          :: (deflateFixed chunks.flatten
            ++ (le32 (crc32 chunks.flatten 0)
                ++ le32 (chunks.flatten.length % 2 ^ 32))) from by
      simp [gzipHeader, le32]]
    rw [gunzip]
    have hlen : (deflateFixed chunks.flatten
        ++ (le32 (crc32 chunks.flatten 0)
            ++ le32 (chunks.flatten.length % 2 ^ 32))).length - 8
        = (deflateFixed chunks.flatten).length := by
      simp [le32_length]
    rw [hlen]
    rw [List.take_left, List.drop_left]
    rw [inflateRaw_deflateFixed chunks.flatten hflat]
    simp

/-- Witness for `gzip_stream` at timestamp 0 and input `"hi"`. -/
theorem gzip_stream_witness :
    ((0 : Nat) < 2 ^ 32 ∧ (∀ c ∈ ([[104, 105]] : List (List Nat)), ∀ b ∈ c, b < 256))
    ∧ (((streamGzip 0 [[104, 105]]).flatten).take 10
          = [0x1F, 0x8B, 0x08, 0x00] ++ le32 0 ++ [0x02, 0xFF]
      ∧ ((streamGzip 0 [[104, 105]]).flatten).drop
            ((streamGzip 0 [[104, 105]]).flatten.length - 8)
          = le32 (crc32 ([[104, 105]] : List (List Nat)).flatten 0)
            ++ le32 (([[104, 105]] : List (List Nat)).flatten.length % 2 ^ 32)
      ∧ gunzip ((streamGzip 0 [[104, 105]]).flatten)
          = some ([[104, 105]] : List (List Nat)).flatten) :=
  ⟨⟨by norm_num, by decide⟩, gzip_stream 0 [[104, 105]] (by norm_num) (by decide)⟩

/-! ## Dotmatrix assembler (C7, C10)

Translated from `Assembler` in `src/vx/vxr.py` lines 780-976.  The open
output file is modelled by the list of bytes written so far; `dec_vle`
calls in `_process` share one iterator over `self.buf`, so the
stream-header parse tracks how many bytes each call pulled from the
iterator (`dec_vle_go2`) separately from its reported `ate` count. -/

/-- `dec_vle` with the number of bytes the iterator consumed (which
differs from the reported count on failure). -/
def dec_vle_go2 : List Nat → Nat → Nat → Nat → (Int × Nat) × Nat
  | [], _, _, nate => ((-1, 0), nate)
  | v :: rest, vret, vpow, nate =>
    if v < 0x80 then (((vret ||| (v <<< vpow) : Nat), nate + 1), nate + 1)
    else
      let vret := vret ||| ((v - 0x80) <<< vpow)
      let vpow := vpow + 7
      if vpow ≥ 63 then ((-1, 0), nate + 1)
      else dec_vle_go2 rest vret vpow (nate + 1)

theorem dec_vle_go2_fst : ∀ (buf : List Nat) (vret vpow nate : Nat),
    (dec_vle_go2 buf vret vpow nate).1 = dec_vle_go buf vret vpow nate := by
  intro buf
  induction buf with
  | nil => intro vret vpow nate; rfl
  | cons v rest ih =>
    intro vret vpow nate
    rw [dec_vle_go2, dec_vle_go]
    by_cases h1 : v < 0x80
    · simp [h1]
    · simp only [if_neg h1]
      by_cases h2 : vpow + 7 ≥ 63
      · simp [h2]
      · simp only [if_neg h2]
        exact ih _ _ _

/-- The state of one pending output file (`self.payload`): name, declared
size and mtime, stored checksum, and the bytes written so far (models the
open file handle and its `tell()`). -/
structure VxPayload where
  fn : List Nat
  sz : Int
  ts : Int
  cksum : List Nat
  written : List Nat
deriving DecidableEq

/-- `Assembler` state (`__init__`, lines 781-791). -/
structure AsmState where
  buf : List Nat
  remainder : List Bool
  next_frame : Nat
  frametab : List (Nat × List Nat × List Bool)
  fig_no : Nat
  files_total : Option Int
  bytes_total : Option Int
  files_done : Nat
  bytes_done : Nat
  payload : Option VxPayload
deriving DecidableEq

def asmInit : AsmState := ⟨[], [], 0, [], 0, none, none, 0, 0, none⟩

instance {ε α : Type} [DecidableEq ε] [DecidableEq α] : DecidableEq (Except ε α)
  | .error a, .error b =>
    if h : a = b then .isTrue (by rw [h]) else .isFalse (by simp [h])
  | .error _, .ok _ => .isFalse (by simp)
  | .ok _, .error _ => .isFalse (by simp)
  | .ok a, .ok b =>
    if h : a = b then .isTrue (by rw [h]) else .isFalse (by simp [h])

def tabLookup : List (Nat × List Nat × List Bool) → Nat → Option (List Nat × List Bool)
  | [], _ => none
  | (k, v) :: rest, n => if k = n then some v else tabLookup rest n

def tabErase : List (Nat × List Nat × List Bool) → Nat → List (Nat × List Nat × List Bool)
  | [], _ => []
  | (k, v) :: rest, n => if k = n then tabErase rest n else (k, v) :: tabErase rest n

def tabInsert (tab : List (Nat × List Nat × List Bool)) (n : Nat)
    (v : List Nat × List Bool) : List (Nat × List Nat × List Bool) :=
  tabErase tab n ++ [(n, v)]

/-- `Assembler._realign` (lines 814-833): drain ready frames from the
frame table into the ordered byte buffer, stopping at the first gap
(the returned success/missing pair is ignored by `_process`). -/
def asmRealign : Nat → AsmState → AsmState
  | 0, s => s
  | fuel + 1, s =>
    if s.frametab.isEmpty then s
    else match tabLookup s.frametab s.next_frame with
      | none => s
      | some (fdata, frem) =>
        let bits := s.remainder ++ bstr2bits fdata ++ frem
        let bstr := bits2bstr bits
        asmRealign fuel
          { s with
            buf := s.buf ++ bstr
            remainder := bits.drop (bstr.length * 8)
            frametab := tabErase s.frametab s.next_frame
            next_frame := s.next_frame + 1 }

/-- Python truthiness of the `Option Int` totals (`None` and `0` are
falsy; note `-1` is truthy). -/
def truthyI : Option Int → Bool
  | none => false
  | some v => decide (v ≠ 0)

/-- The file-header parse of `_process` (lines 868-911): VLE size, VLE
mtime, 16 raw checksum bytes, VLE name length, name bytes; `none` when any
field is incomplete (each `ate == 0` check and each `RuntimeError` from an
exhausted iterator returns `False` without consuming). -/
def parseFileHeader (buf : List Nat) :
    Option (Int × Int × List Nat × List Nat × Nat) :=
  let r1 := dec_vle buf
  if r1.2 = 0 then none
  else
    let r2 := dec_vle (buf.drop r1.2)
    if r2.2 = 0 then none
    else if (buf.drop (r1.2 + r2.2)).length < 16 then none
    else
      let cksum := (buf.drop (r1.2 + r2.2)).take 16
      let r3 := dec_vle (buf.drop (r1.2 + r2.2 + 16))
      if r3.2 = 0 then none
      else
        let fnlen := r3.1.toNat
        if (buf.drop (r1.2 + r2.2 + 16 + r3.2)).length < fnlen then none
        else
          let fn := (buf.drop (r1.2 + r2.2 + 16 + r3.2)).take fnlen
          some (r1.1, r2.1, cksum, fn, r1.2 + r2.2 + 16 + r3.2 + fnlen)

/-- `b"inc/"` output-directory prefix. -/
def incPrefix : List Nat := [105, 110, 99, 47]

/-- `Assembler._process` (lines 835-976).  Exceptions (`raise`) are
`Except.error`; `True`/`False` returns are `.ok (true, s)` / `.ok (false,
s)`.  The payload `none` case in the payload branch would be a Python
`TypeError` (unreachable in the program flow). -/
def asmProcess (s0 : AsmState) : Except String (Bool × AsmState) :=
  let s := asmRealign s0.frametab.length s0
  if s.fig_no = 0 then
    let r1 := dec_vle s.buf
    if r1.1 ≠ 1 then .error "this vxr supports version 1 only"
    else
      let r2 := dec_vle_go2 (s.buf.drop r1.2) 0 0 0
      let r3 := dec_vle_go2 (s.buf.drop (r1.2 + r2.2)) 0 0 0
      .ok (true,
        { s with
          buf := s.buf.drop (r1.2 + r2.1.2 + r3.1.2)
          files_total := some r2.1.1
          bytes_total := some r3.1.1
          fig_no := s.fig_no + 1 })
  else if ¬ truthyI s.files_total then .error "awawa"
  else if s.fig_no % 2 = 1 then
    match parseFileHeader s.buf with
    | none => .ok (false, s)
    | some (sz, ts, cksum, fn, pos) =>
      .ok (true,
        { s with
          buf := s.buf.drop pos
          payload := some ⟨incPrefix ++ fn, sz, ts, cksum, []⟩
          fig_no := s.fig_no + 1 })
  else
    match s.payload with
    | none => .error "payload unset"
    | some p =>
      let remains := p.sz - (p.written.length : Int)
      let wn := if s.buf.isEmpty ∨ remains ≤ 0 then 0
        else min remains.toNat s.buf.length
      let p2 : VxPayload := { p with written := p.written ++ s.buf.take wn }
      let s2 := { s with
        buf := s.buf.drop wn
        bytes_done := s.bytes_done + wn
        payload := some p2 }
      if (p2.written.length : Int) ≥ p.sz then
        if p.cksum ≠ (sha512 p2.written).take 16 then .error "file corrupted"
        else .ok (true,
          { s2 with files_done := s2.files_done + 1, fig_no := s2.fig_no + 1 })
      else .ok (false, s2)

/-- The completion guard at the top of `Assembler.put`'s decode loop:
`if self.bytes_total and self.bytes_done >= self.bytes_total`. -/
def putGuard (s : AsmState) : Bool :=
  match s.bytes_total with
  | none => false
  | some v => decide (v ≠ 0) && decide ((s.bytes_done : Int) ≥ v)

def asmPutLoop : Nat → AsmState → Except String (Bool × AsmState)
  | 0, s => .ok (false, s)
  | fuel + 1, s =>
    if putGuard s then .ok (true, s)
    else match asmProcess s with
      | .error e => .error e
      | .ok (true, s') => asmPutLoop fuel s'
      | .ok (false, s') => .ok (false, s')

/-- `Assembler.put` (lines 793-812): drop frames below the next expected
number, store the frame's bits (bytes plus a sub-byte bit remainder), then
decode what is ready.  The `while True` loop is fuel-driven; exhausted
fuel (which cannot happen for terminating runs) reports `False`. -/
def asmPut (fuel : Nat) (s : AsmState) (nframe : Nat) (data : List Bool) :
    Except String (Bool × AsmState) :=
  if nframe < s.next_frame then .ok (false, s)
  else
    let bstr := bits2bstr data
    let remains := data.drop (bstr.length * 8)
    asmPutLoop fuel { s with frametab := tabInsert s.frametab nframe (bstr, remains) }

theorem asmRealign_empty (fuel : Nat) (s : AsmState) (h : s.frametab = []) :
    asmRealign fuel s = s := by
  cases fuel with
  | zero => rfl
  | succ fuel => rw [asmRealign, if_pos (by simp [h])]

/-- C7 counterexample: on a fresh assembler whose buffer is missing the
stream header's version field entirely, `_process` raises the fatal
version exception (`dec_vle` reports `-1`, which is `≠ 1`) instead of
consuming nothing and waiting for more bytes. -/
theorem asm_incomplete_counterexample :
    asmProcess asmInit = .error "this vxr supports version 1 only" := by rfl

/-- C7 amended: a file header missing any required field (VLE size, VLE
mtime, 16 checksum bytes, VLE name length, name bytes) makes `_process`
wait without consuming input; but the stream header is not guarded: a
missing or incomplete version VLE raises the same fatal exception as an
unsupported version (the only other fatal condition in this parsing), and
missing file-count/byte-count fields are consumed with `-1` placeholder
totals rather than awaited. -/
theorem asm_incomplete_amended :
    (∀ s : AsmState, s.frametab = [] → s.fig_no % 2 = 1 →
      truthyI s.files_total = true → parseFileHeader s.buf = none →
      asmProcess s = .ok (false, s))
    ∧ (∀ s : AsmState, s.frametab = [] → s.fig_no = 0 → (dec_vle s.buf).1 ≠ 1 →
      asmProcess s = .error "this vxr supports version 1 only")
    ∧ asmProcess { asmInit with buf := [1, 0x80] }
        = .ok (true, { asmInit with
                       buf := [0x80]
                       files_total := some (-1)
                       bytes_total := some (-1)
                       fig_no := 1 }) := by
  refine ⟨?_, ?_, ?_⟩
  · intro s h1 h2 h3 h4
    unfold asmProcess
    rw [asmRealign_empty _ _ h1]
    rw [if_neg (by omega : ¬ s.fig_no = 0)]
    rw [if_neg (by simp [h3])]
    rw [if_pos h2, h4]
  · intro s h1 h2 h3
    unfold asmProcess
    rw [asmRealign_empty _ _ h1]
    rw [if_pos h2, if_pos h3]
  · rfl

/-- Witness for `asm_incomplete_amended`: a state waiting on a file header
with an empty buffer, and the fresh state with an empty buffer. -/
theorem asm_incomplete_amended_witness :
    (({ asmInit with fig_no := 1, files_total := some 1 } : AsmState).frametab = []
      ∧ ({ asmInit with fig_no := 1, files_total := some 1 } : AsmState).fig_no % 2 = 1
      ∧ truthyI ({ asmInit with fig_no := 1, files_total := some 1 } : AsmState).files_total
          = true
      ∧ parseFileHeader ({ asmInit with fig_no := 1, files_total := some 1 } : AsmState).buf
          = none
      ∧ asmInit.frametab = [] ∧ asmInit.fig_no = 0 ∧ (dec_vle asmInit.buf).1 ≠ 1)
    ∧ asmProcess { asmInit with fig_no := 1, files_total := some 1 }
        = .ok (false, { asmInit with fig_no := 1, files_total := some 1 })
    ∧ asmProcess asmInit = .error "this vxr supports version 1 only" :=
  ⟨⟨by decide, by decide, by decide, by decide, by decide, by decide, by decide⟩,
   asm_incomplete_amended.1 _ (by decide) (by decide) (by decide) (by decide),
   asm_incomplete_amended.2.1 asmInit (by decide) (by decide) (by decide)⟩

theorem asmRealign_keeps (fuel : Nat) : ∀ s : AsmState,
    (asmRealign fuel s).fig_no = s.fig_no
    ∧ (asmRealign fuel s).bytes_total = s.bytes_total
    ∧ (asmRealign fuel s).bytes_done = s.bytes_done := by
  induction fuel with
  | zero => intro s; exact ⟨rfl, rfl, rfl⟩
  | succ fuel ih =>
    intro s
    rw [asmRealign]
    split
    · exact ⟨rfl, rfl, rfl⟩
    · split
      · exact ⟨rfl, rfl, rfl⟩
      · exact ih _

/-- `_process` keeps the figment counter at 1 or above and never rewrites
an already-parsed zero byte total. -/
theorem asmProcess_keeps_zero_total (s s₂ : AsmState) (r : Bool)
    (hfig : 1 ≤ s.fig_no) (hbt : s.bytes_total = some 0)
    (h : asmProcess s = .ok (r, s₂)) :
    1 ≤ s₂.fig_no ∧ s₂.bytes_total = some 0 := by
  unfold asmProcess at h
  have hk := asmRealign_keeps s.frametab.length s
  set t := asmRealign s.frametab.length s with ht
  have hfig' : 1 ≤ t.fig_no := hk.1.symm ▸ hfig
  have hbt' : t.bytes_total = some 0 := hk.2.1.trans hbt
  rw [if_neg (by omega : ¬ t.fig_no = 0)] at h
  by_cases hawawa : ¬ truthyI t.files_total
  · rw [if_pos hawawa] at h
    exact absurd h (by simp)
  · rw [if_neg hawawa] at h
    by_cases hodd : t.fig_no % 2 = 1
    · rw [if_pos hodd] at h
      cases hp : parseFileHeader t.buf with
      | none =>
        rw [hp] at h
        simp only [Except.ok.injEq, Prod.mk.injEq] at h
        obtain ⟨_, h2⟩ := h
        subst h2
        exact ⟨hfig', hbt'⟩
      | some v =>
        obtain ⟨sz, ts, cksum, fn, pos⟩ := v
        rw [hp] at h
        simp only [Except.ok.injEq, Prod.mk.injEq] at h
        obtain ⟨_, h2⟩ := h
        subst h2
        exact ⟨Nat.le_succ_of_le hfig', hbt'⟩
    · rw [if_neg hodd] at h
      split at h
      · exact absurd h (by simp)
      · dsimp only at h
        repeat' split at h
        all_goals cases h
        all_goals
          first
          | exact ⟨Nat.le_succ_of_le hfig', hbt'⟩
          | exact ⟨hfig', hbt'⟩

theorem asmPutLoop_true_guard : ∀ (fuel : Nat) (s s' : AsmState),
    asmPutLoop fuel s = .ok (true, s') → putGuard s' = true := by
  intro fuel
  induction fuel with
  | zero =>
    intro s s' h
    rw [asmPutLoop] at h
    simp at h
  | succ fuel ih =>
    intro s s' h
    rw [asmPutLoop] at h
    by_cases hg : putGuard s
    · rw [if_pos hg] at h
      simp only [Except.ok.injEq, Prod.mk.injEq] at h
      obtain ⟨_, h2⟩ := h
      subst h2
      exact hg
    · rw [if_neg hg] at h
      cases hp : asmProcess s with
      | error e => rw [hp] at h; exact absurd h (by simp)
      | ok v =>
        obtain ⟨r, s₂⟩ := v
        rw [hp] at h
        cases r with
        | true => exact ih _ _ h
        | false => simp at h

theorem asmPutLoop_zero_total : ∀ (fuel : Nat) (s : AsmState),
    1 ≤ s.fig_no → s.bytes_total = some 0 →
    ∀ s', asmPutLoop fuel s ≠ .ok (true, s') := by
  intro fuel
  induction fuel with
  | zero =>
    intro s _ _ s' h
    rw [asmPutLoop] at h
    simp at h
  | succ fuel ih =>
    intro s hfig hbt s' h
    rw [asmPutLoop] at h
    have hg : putGuard s = false := by
      rw [putGuard, hbt]
      simp
    rw [if_neg (by simp [hg])] at h
    cases hp : asmProcess s with
    | error e => rw [hp] at h; exact absurd h (by simp)
    | ok v =>
      obtain ⟨r, s₂⟩ := v
      rw [hp] at h
      cases r with
      | true =>
        obtain ⟨h1, h2⟩ := asmProcess_keeps_zero_total s s₂ true hfig hbt hp
        exact ih s₂ h1 h2 s' h
      | false => simp at h

/-- C10: `Assembler.put` reports completion only when the running byte
counter has reached a truthy (nonzero) declared byte total; consequently a
transfer whose stream header declared a total of 0 (only empty files) is
never reported complete, no matter what further frames arrive. -/
theorem asm_put_completion (fuel : Nat) (s : AsmState) (nframe : Nat)
    (data : List Bool) (s' : AsmState) :
    (asmPut fuel s nframe data = .ok (true, s') → putGuard s' = true)
    ∧ (1 ≤ s.fig_no → s.bytes_total = some 0 →
      asmPut fuel s nframe data ≠ .ok (true, s')) := by
  constructor
  · intro h
    rw [asmPut] at h
    split at h
    · simp at h
    · exact asmPutLoop_true_guard fuel _ s' h
  · intro hfig hbt h
    rw [asmPut] at h
    split at h
    · simp at h
    · refine asmPutLoop_zero_total fuel _ ?_ ?_ s' h
      · exact hfig
      · exact hbt

/-- Witness for `asm_put_completion`: a state that has already reached its
nonzero total returns `True` (guard holds), and a state mid-transfer with
a declared total of 0 can never return `True`. -/
theorem asm_put_completion_witness :
    (asmPut 1 { asmInit with bytes_total := some 1, bytes_done := 1 } 0 []
        = .ok (true, { asmInit with
                       bytes_total := some 1
                       bytes_done := 1
                       frametab := [(0, ([], []))] })
      → putGuard { asmInit with
                   bytes_total := some 1
                   bytes_done := 1
                   frametab := [(0, ([], []))] } = true)
    ∧ (1 ≤ ({ asmInit with fig_no := 1, bytes_total := some 0 } : AsmState).fig_no
      ∧ ({ asmInit with fig_no := 1, bytes_total := some 0 } : AsmState).bytes_total
          = some 0
      ∧ asmPut 2 { asmInit with fig_no := 1, bytes_total := some 0 } 0 []
          ≠ .ok (true, asmInit))
    ∧ putGuard { asmInit with
                 bytes_total := some 1
                 bytes_done := 1
                 frametab := [(0, ([], []))] } = true :=
  ⟨(asm_put_completion 1 { asmInit with bytes_total := some 1, bytes_done := 1 }
      0 [] _).1,
   ⟨by decide, by decide,
    (asm_put_completion 2 { asmInit with fig_no := 1, bytes_total := some 0 }
        0 [] asmInit).2 (by decide) (by decide)⟩,
   (asm_put_completion 1 { asmInit with bytes_total := some 1, bytes_done := 1 }
       0 [] _).1 (by decide)⟩

/-! ## Dotmatrix figment packing (`vxt.py`, `Vxt.get_frame_info`) -/

/-- One figment-table entry (`Vxt.__init__`, lines 367-372): each file
contributes its header dict (`fn`/`sz`/`ts`/`pl=False`/`len`) and a payload
dict (`len=sz`/`pl=True`).  Python compares dicts by value, which this
type's `DecidableEq` mirrors: header dicts are equal when all fields agree,
payload dicts are equal when the sizes agree, and a header dict never
equals a payload dict (different key sets). -/
inductive FigData where
  | header (fn : List Nat) (sz ts len : Nat)
  | payload (len : Nat)
deriving DecidableEq

/-- `fig["len"]`. -/
def FigData.len : FigData → Nat
  | .header _ _ _ l => l
  | .payload l => l

/-- `bytes.find`: lowest index where `pat` occurs in the remaining list,
`-1` when absent (`i` counts the positions already passed). -/
def bfindGo (pat : List Nat) : List Nat → Nat → Int
  | [], i => if pat = [] then (i : Int) else -1
  | a :: t, i =>
    if (a :: t).take pat.length = pat then (i : Int) else bfindGo pat t (i + 1)

def bfind (l pat : List Nat) : Int := bfindGo pat l 0

/-- The filename munging of `gen_header` (lines 412-418): drop a drive
prefix when `:\` sits at index 1, turn backslashes into slashes, strip
leading slashes. -/
def rfnOf (fn : List Nat) : List Nat :=
  let r1 := if bfind fn [58, 92] = 1 then fn.drop 3 else fn
  let r2 := r1.map (fun b => if b = 92 then 47 else b)
  r2.dropWhile (fun b => b == 47)

/-- `gen_header` (lines 394-427) as called with `fake_csum=True` by
`__init__` to size the header figments: 16 `b"x"` bytes (ASCII 120) stand
in for the checksum, so only the length matters here. -/
def gen_header (fn : List Nat) (sz ts : Nat) : List Nat :=
  enc_vle sz ++ enc_vle ts ++ List.replicate 16 120
    ++ enc_vle (rfnOf fn).length ++ rfnOf fn

/-- One input file record: name bytes, size in bytes, mtime. -/
structure VxFile where
  fn : List Nat
  sz : Nat
  ts : Nat

/-- `__init__` lines 367-372: the figment table, a header figment then a
payload figment per file. -/
def mkFigs : List VxFile → List FigData
  | [] => []
  | f :: rest =>
    .header f.fn f.sz f.ts (gen_header f.fn f.sz f.ts).length
      :: .payload f.sz :: mkFigs rest

/-- `__init__` line 378: the stream header
`enc_vle(1) + enc_vle(nfiles) + enc_vle(nbytes)`. -/
def header0Of (files : List VxFile) : List Nat :=
  enc_vle 1 ++ enc_vle files.length ++ enc_vle (files.map VxFile.sz).sum

/-- One `displayed` entry of `get_frame_info` (lines 463-465).  The Python
dict holds a reference to the fig dict itself; a reference into
`self.figs` is modelled by the entry's table index. -/
structure Chunk where
  fig : Nat
  bit1 : Nat
  bit2 : Nat
  ofs : Nat
deriving DecidableEq

/-- Python `list.index`: position of the first entry EQUAL BY VALUE to
`f`.  (The `ValueError` case cannot occur here, `get_frame_info` always
passes a member of the table; it is mapped to the list length.) -/
def pyIndex : List FigData → FigData → Nat
  | [], _ => 0
  | g :: rest, f => if g = f then 0 else pyIndex rest f + 1

/-- The `while` loop of `get_frame_info` (lines 450-468), fuel-driven: one
fuel unit per iteration.  Each iteration either finishes a figment or
spends at least one bit, so `figs.length + nbits` fuel is never
exhausted. -/
def frameChunksGo (figs : List FigData) (nbits : Nat) :
    Nat → Nat → Nat → Nat → List Chunk
  | 0, _, _, _ => []
  | fuel + 1, fig_idx, fig_bit, bits_spent =>
    if bits_spent < nbits ∧ fig_idx < figs.length then
      let fig := figs.getD fig_idx (.payload 0)
      if fig.len * 8 ≤ fig_bit then
        frameChunksGo figs nbits fuel (fig_idx + 1) 0 bits_spent
      else
        let bit2 := min (fig_bit + (nbits - bits_spent)) (fig.len * 8)
        ⟨fig_idx, fig_bit, bit2, bits_spent⟩
          :: frameChunksGo figs nbits fuel fig_idx bit2
              (bits_spent + (bit2 - fig_bit))
    else []

/-- `get_frame_info` (lines 430-474) computing frame `nframe` from the
previous frame's chunk list (`self.frames[nframe-1]`; the memoization is
the caller's).  For `nframe > 0` the loop resumes at
`self.figs.index(pframe[-1]["fig"])` - the FIRST table entry whose dict
VALUE equals the previous frame's last fig - and at that chunk's `bit2`.
An empty `displayed` is returned as `None` (end of stream).  The
`prev = []` case cannot occur (a returned frame is never empty). -/
def get_frame_info (figs : List FigData) (nbits : Nat) (header0 : List Nat)
    (nframe : Nat) (prev : List Chunk) : Option (List Chunk) :=
  let base := (4 + (enc_vle nframe).length) * 8
  let start : Nat × Nat × Nat :=
    if nframe = 0 then (0, 0, base + header0.length * 8)
    else
      match prev.getLast? with
      | some c => (pyIndex figs (figs.getD c.fig (.payload 0)), c.bit2, base)
      | none => (0, 0, base)
  let displayed := frameChunksGo figs nbits (figs.length + nbits)
    start.1 start.2.1 start.2.2
  if displayed.isEmpty then none else some displayed

/-- Frames 0, 1, 2, ... in order, each computed from its predecessor,
stopping at the first `None` (the transmitter's end of stream). -/
def allFramesGo (figs : List FigData) (nbits : Nat) (header0 : List Nat) :
    Nat → Nat → List Chunk → List (List Chunk)
  | 0, _, _ => []
  | fuel + 1, n, prev =>
    match get_frame_info figs nbits header0 n prev with
    | none => []
    | some d => d :: allFramesGo figs nbits header0 fuel (n + 1) d

def allFrames (figs : List FigData) (nbits : Nat) (header0 : List Nat)
    (fuel : Nat) : List (List Chunk) :=
  allFramesGo figs nbits header0 fuel 0 []

/-- Total figment bits of the table. -/
def figBits : List FigData → Nat
  | [] => 0
  | f :: rest => f.len * 8 + figBits rest

/-- Global bit position of bit `b` of figment `i`. -/
def posOf : List FigData → Nat → Nat → Nat
  | _, 0, b => b
  | [], _ + 1, b => b
  | f :: rest, i + 1, b => f.len * 8 + posOf rest i b

def canonSpanGo : List FigData → Nat → List (Nat × Nat)
  | [], _ => []
  | f :: rest, i =>
    (List.range (f.len * 8)).map (fun b => (i, b)) ++ canonSpanGo rest (i + 1)

/-- The canonical in-order enumeration of every figment bit, as
`(figment index, bit)` pairs: the stream contents that the frames are
supposed to tile exactly. -/
def canonSpan (figs : List FigData) : List (Nat × Nat) := canonSpanGo figs 0

/-- The figment bits a chunk assigns. -/
def chunkSpan (c : Chunk) : List (Nat × Nat) :=
  (List.range (c.bit2 - c.bit1)).map (fun k => (c.fig, c.bit1 + k))

/-- All figment bits a frame assigns, in chunk order. -/
def frameSpan (p : List Chunk) : List (Nat × Nat) := p.flatMap chunkSpan

theorem pyIndex_getElem : ∀ (figs : List FigData) (i : Nat)
    (h : i < figs.length), figs.Nodup → pyIndex figs (figs.get ⟨i, h⟩) = i := by
  intro figs
  induction figs with
  | nil => intro i h; simp at h
  | cons f rest ih =>
    intro i h hnd
    rw [List.nodup_cons] at hnd
    cases i with
    | zero => simp [pyIndex]
    | succ i =>
      have hi : i < rest.length := by simpa using h
      have hmem : rest.get ⟨i, hi⟩ ∈ rest := List.get_mem rest i hi
      have hne : ¬ f = rest.get ⟨i, hi⟩ := fun he => hnd.1 (he ▸ hmem)
      simp only [List.get_cons_succ, pyIndex]
      rw [if_neg hne, ih i hi hnd.2]

theorem pyIndex_getD (figs : List FigData) (i : Nat) (h : i < figs.length)
    (hnd : figs.Nodup) : pyIndex figs (figs.getD i (.payload 0)) = i := by
  rw [List.getD_eq_getElem figs _ h]
  exact pyIndex_getElem figs i h hnd

theorem canonSpanGo_length : ∀ (figs : List FigData) (j : Nat),
    (canonSpanGo figs j).length = figBits figs := by
  intro figs
  induction figs with
  | nil => intro j; rfl
  | cons f rest ih => intro j; simp [canonSpanGo, figBits, ih]

theorem canonSpan_length (figs : List FigData) :
    (canonSpan figs).length = figBits figs := canonSpanGo_length figs 0

theorem posOf_base : ∀ (figs : List FigData) (i b : Nat),
    posOf figs i b = posOf figs i 0 + b := by
  intro figs
  induction figs with
  | nil => intro i b; cases i <;> simp [posOf]
  | cons f rest ih =>
    intro i b
    cases i with
    | zero => simp [posOf]
    | succ i => simp only [posOf, ih i b]; omega

theorem posOf_le : ∀ (figs : List FigData) (i b : Nat), i < figs.length →
    b ≤ (figs.getD i (.payload 0)).len * 8 → posOf figs i b ≤ figBits figs := by
  intro figs
  induction figs with
  | nil => intro i b hi; simp at hi
  | cons f rest ih =>
    intro i b hi hb
    cases i with
    | zero =>
      simp only [List.getD_cons_zero] at hb
      simp only [posOf, figBits]
      omega
    | succ i =>
      simp only [List.getD_cons_succ] at hb
      simp only [posOf, figBits]
      have := ih i b (by simpa using hi) hb
      omega

theorem posOf_ge : ∀ (figs : List FigData) (i b : Nat),
    figs.length ≤ i → figBits figs ≤ posOf figs i b := by
  intro figs
  induction figs with
  | nil => intro i b _; cases i <;> simp [posOf, figBits]
  | cons f rest ih =>
    intro i b hi
    cases i with
    | zero => simp at hi
    | succ i =>
      simp only [posOf, figBits]
      have := ih i b (by simpa using hi)
      omega

theorem posOf_skip : ∀ (figs : List FigData) (i : Nat), i < figs.length →
    posOf figs (i + 1) 0 = posOf figs i ((figs.getD i (.payload 0)).len * 8) := by
  intro figs
  induction figs with
  | nil => intro i hi; simp at hi
  | cons f rest ih =>
    intro i hi
    cases i with
    | zero => simp [posOf]
    | succ i =>
      simp only [posOf, List.getD_cons_succ]
      rw [ih i (by simpa using hi)]

theorem canonSpanGo_getElem : ∀ (figs : List FigData) (j i b : Nat),
    i < figs.length → b < (figs.getD i (.payload 0)).len * 8 →
    (canonSpanGo figs j)[posOf figs i b]? = some (j + i, b) := by
  intro figs
  induction figs with
  | nil => intro j i b hi; simp at hi
  | cons f rest ih =>
    intro j i b hi hb
    cases i with
    | zero =>
      simp only [List.getD_cons_zero] at hb
      simp only [canonSpanGo, posOf]
      rw [List.getElem?_append, if_pos (by simpa using hb)]
      simp [List.getElem?_map, List.getElem?_range hb]
    | succ i =>
      simp only [List.getD_cons_succ] at hb
      simp only [canonSpanGo, posOf]
      rw [List.getElem?_append_right (by simp)]
      have harith : f.len * 8 + posOf rest i b
          - ((List.range (f.len * 8)).map (fun b => (j, b))).length
          = posOf rest i b := by simp
      rw [harith, ih (j + 1) i b (by simpa using hi) hb]
      congr 2
      omega

theorem canonSeg (figs : List FigData) (i b m : Nat) (hi : i < figs.length)
    (hm : b + m ≤ (figs.getD i (.payload 0)).len * 8) :
    ((canonSpan figs).drop (posOf figs i b)).take m
      = (List.range m).map (fun k => (i, b + k)) := by
  apply List.ext_getElem?
  intro k
  by_cases hk : k < m
  · rw [List.getElem?_take, if_pos hk, List.getElem?_drop]
    have hidx : posOf figs i b + k = posOf figs i (b + k) := by
      rw [posOf_base figs i b, posOf_base figs i (b + k)]; omega
    rw [hidx, canonSpan,
      canonSpanGo_getElem figs 0 i (b + k) hi (by omega)]
    simp [hk]
  · rw [List.getElem?_take, if_neg hk,
      List.getElem?_eq_none (by simp; omega)]

/-- The `while` loop, fully characterised: starting at figment `i` bit `b`
with `spent` bits of the frame already used, (1) the assigned spans tile
exactly the canonical enumeration from global position `posOf figs i b`
for the `nbits - spent` remaining bits, (2) the chunk list is empty only
when the frame budget is exhausted or the whole stream is, (3) conversely a
nonempty chunk list attests budget and stream remained, and (4) the last
chunk ends at a valid in-table position whose global index is start plus
everything consumed. -/
theorem frameChunksGo_spec (figs : List FigData) (nbits : Nat) :
    ∀ (fuel i b spent : Nat),
    (i < figs.length → b ≤ (figs.getD i (.payload 0)).len * 8) →
    figs.length - i + (nbits - spent) ≤ fuel →
    frameSpan (frameChunksGo figs nbits fuel i b spent)
        = ((canonSpan figs).drop (posOf figs i b)).take (nbits - spent)
    ∧ (frameChunksGo figs nbits fuel i b spent = [] →
        nbits ≤ spent ∨ figBits figs ≤ posOf figs i b)
    ∧ (frameChunksGo figs nbits fuel i b spent ≠ [] →
        spent < nbits ∧ posOf figs i b < figBits figs)
    ∧ (∀ c, (frameChunksGo figs nbits fuel i b spent).getLast? = some c →
        c.fig < figs.length
        ∧ c.bit2 ≤ (figs.getD c.fig (.payload 0)).len * 8
        ∧ posOf figs c.fig c.bit2
            = min (posOf figs i b + (nbits - spent)) (figBits figs)) := by
  intro fuel
  induction fuel with
  | zero =>
    intro i b spent hinv hfuel
    have hle : figs.length ≤ i ∧ nbits ≤ spent := by omega
    refine ⟨?_, fun _ => Or.inl hle.2, fun hne => absurd rfl hne, ?_⟩
    · show frameSpan [] = _
      rw [show nbits - spent = 0 from by omega]
      simp [frameSpan]
    · intro c hc
      simp [frameChunksGo] at hc
  | succ fuel ih =>
    intro i b spent hinv hfuel
    by_cases hguard : spent < nbits ∧ i < figs.length
    · have hstep0 : frameChunksGo figs nbits (fuel + 1) i b spent
          = if (figs.getD i (.payload 0)).len * 8 ≤ b then
              frameChunksGo figs nbits fuel (i + 1) 0 spent
            else
              ⟨i, b, min (b + (nbits - spent)) ((figs.getD i (.payload 0)).len * 8),
                  spent⟩
                :: frameChunksGo figs nbits fuel i
                    (min (b + (nbits - spent)) ((figs.getD i (.payload 0)).len * 8))
                    (spent + (min (b + (nbits - spent))
                        ((figs.getD i (.payload 0)).len * 8) - b)) := by
        rw [frameChunksGo, if_pos hguard]
      by_cases hskip : (figs.getD i (.payload 0)).len * 8 ≤ b
      · have hb : b = (figs.getD i (.payload 0)).len * 8 :=
          le_antisymm (hinv hguard.2) hskip
        have hpos : posOf figs i b = posOf figs (i + 1) 0 := by
          rw [hb, ← posOf_skip figs i hguard.2]
        rw [hstep0, if_pos hskip, hpos]
        exact ih (i + 1) 0 spent (fun _ => Nat.zero_le _) (by omega)
      · have hblt : b < (figs.getD i (.payload 0)).len * 8 := by omega
        set L := (figs.getD i (.payload 0)).len * 8 with hL
        set bit2 := min (b + (nbits - spent)) L with hbit2
        have hb2a : b < bit2 := by
          rw [hbit2]
          rcases Nat.le_total (b + (nbits - spent)) L with hmin | hmin
          · rw [min_eq_left hmin]; omega
          · rw [min_eq_right hmin]; omega
        have hb2b : bit2 ≤ L := min_le_right _ _
        have hb2c : bit2 ≤ b + (nbits - spent) := min_le_left _ _
        have hb2or : bit2 = b + (nbits - spent) ∨ bit2 = L := by
          rw [hbit2]
          rcases Nat.le_total (b + (nbits - spent)) L with hmin | hmin
          · exact Or.inl (min_eq_left hmin)
          · exact Or.inr (min_eq_right hmin)
        set spent2 := spent + (bit2 - b) with hspent2
        have hstep : frameChunksGo figs nbits (fuel + 1) i b spent
            = ⟨i, b, bit2, spent⟩ :: frameChunksGo figs nbits fuel i bit2 spent2 := by
          rw [hstep0, if_neg hskip]
        obtain ⟨ihS, ihE, ihN, ihL⟩ :=
          ih i bit2 spent2 (fun _ => hb2b) (by omega)
        have hP2 : posOf figs i b + (bit2 - b) = posOf figs i bit2 := by
          rw [posOf_base figs i b, posOf_base figs i bit2]; omega
        have hb2tot : posOf figs i bit2 ≤ figBits figs :=
          posOf_le figs i bit2 hguard.2 hb2b
        have hbud : nbits - spent2 = (nbits - spent) - (bit2 - b) := by omega
        refine ⟨?_, ?_, ?_, ?_⟩
        · rw [hstep]
          show chunkSpan ⟨i, b, bit2, spent⟩
              ++ frameSpan (frameChunksGo figs nbits fuel i bit2 spent2) = _
          rw [ihS, hbud,
            show nbits - spent = (bit2 - b) + ((nbits - spent) - (bit2 - b)) from
              by omega,
            List.take_add, List.drop_drop, hP2,
            canonSeg figs i b (bit2 - b) hguard.2 (by omega)]
          simp [chunkSpan]
        · rw [hstep]
          intro hnil
          exact absurd hnil (List.cons_ne_nil _ _)
        · intro _
          exact ⟨hguard.1, by omega⟩
        · intro c hc
          rw [hstep] at hc
          cases hrest : frameChunksGo figs nbits fuel i bit2 spent2 with
          | nil =>
            rw [hrest] at hc
            simp only [List.getLast?_singleton, Option.some.injEq] at hc
            subst hc
            refine ⟨hguard.2, hb2b, ?_⟩
            show posOf figs i bit2
                = min (posOf figs i b + (nbits - spent)) (figBits figs)
            rcases ihE hrest with hcase | hcase
            · have : bit2 = b + (nbits - spent) := by omega
              rcases Nat.le_total (posOf figs i b + (nbits - spent)) (figBits figs)
                with hmin | hmin
              · rw [min_eq_left hmin]; omega
              · rw [min_eq_right hmin]; omega
            · rcases Nat.le_total (posOf figs i b + (nbits - spent)) (figBits figs)
                with hmin | hmin
              · rw [min_eq_left hmin]; omega
              · rw [min_eq_right hmin]; omega
          | cons c1 t =>
            rw [hrest, List.getLast?_cons_cons] at hc
            obtain ⟨h1, h2, h3⟩ := ihL c (hrest ▸ hc)
            refine ⟨h1, h2, ?_⟩
            rw [h3]
            have : posOf figs i bit2 + (nbits - spent2)
                = posOf figs i b + (nbits - spent) := by omega
            rw [this]
    · have hstep : frameChunksGo figs nbits (fuel + 1) i b spent = [] := by
        rw [frameChunksGo, if_neg hguard]
      rw [hstep]
      have hdisj : nbits ≤ spent ∨ figs.length ≤ i := by
        by_contra hcon
        push_neg at hcon
        exact hguard ⟨by omega, by omega⟩
      refine ⟨?_, ?_, fun hne => absurd rfl hne, ?_⟩
      · show frameSpan [] = _
        rcases hdisj with hd | hd
        · rw [show nbits - spent = 0 from by omega]
          simp [frameSpan]
        · rw [List.drop_eq_nil_of_le
            (by rw [canonSpan_length]; exact posOf_ge figs i b hd)]
          simp [frameSpan]
      · intro _
        rcases hdisj with hd | hd
        · exact Or.inl hd
        · exact Or.inr (posOf_ge figs i b hd)
      · intro c hc
        simp at hc

/-- Frames `n, n+1, ...` threaded from a previous frame whose last chunk
sits at global position `P`: when the figments are pairwise distinct (so
`figs.index` finds the very figment the previous frame stopped in) and
every frame's header overhead fits, the remaining frames tile exactly the
rest of the canonical enumeration and then stop. -/
theorem allFramesGo_spec (figs : List FigData) (hnd : figs.Nodup) (nbits : Nat)
    (header0 : List Nat)
    (hcap : ∀ n, n ≤ figBits figs →
      (4 + (enc_vle n).length) * 8
        + (if n = 0 then header0.length * 8 else 0) < nbits) :
    ∀ (fuel n : Nat) (prev : List Chunk) (c : Chunk) (P : Nat),
    1 ≤ n → n ≤ P →
    prev.getLast? = some c →
    c.fig < figs.length →
    c.bit2 ≤ (figs.getD c.fig (.payload 0)).len * 8 →
    posOf figs c.fig c.bit2 = P →
    P ≤ figBits figs →
    figBits figs - P + 1 ≤ fuel →
    (allFramesGo figs nbits header0 fuel n prev).flatMap frameSpan
        = (canonSpan figs).drop P := by
  intro fuel
  induction fuel with
  | zero => intro n prev c P _ _ _ _ _ _ _ h8; omega
  | succ fuel ih =>
    intro n prev c P hn1 hnP hlast hcfig hcbit hcpos hPtot _
    have hn0 : ¬ n = 0 := by omega
    have hovn : (4 + (enc_vle n).length) * 8 < nbits := by
      have hco := hcap n (by omega)
      rw [if_neg hn0] at hco
      omega
    have hpy : pyIndex figs (figs.getD c.fig (.payload 0)) = c.fig :=
      pyIndex_getD figs c.fig hcfig hnd
    obtain ⟨hS, hE, hN, hL⟩ := frameChunksGo_spec figs nbits
      (figs.length + nbits) c.fig c.bit2 ((4 + (enc_vle n).length) * 8)
      (fun _ => hcbit) (by omega)
    have hgfi : get_frame_info figs nbits header0 n prev
        = if (frameChunksGo figs nbits (figs.length + nbits) c.fig c.bit2
              ((4 + (enc_vle n).length) * 8)).isEmpty then none
          else some (frameChunksGo figs nbits (figs.length + nbits) c.fig c.bit2
              ((4 + (enc_vle n).length) * 8)) := by
      unfold get_frame_info
      dsimp only
      rw [if_neg hn0, hlast]
      dsimp only
      rw [hpy]
    set D := frameChunksGo figs nbits (figs.length + nbits) c.fig c.bit2
      ((4 + (enc_vle n).length) * 8) with hD
    by_cases hPend : figBits figs ≤ P
    · have hDnil : D = [] := by
        by_contra hne
        have hlt := (hN hne).2
        omega
      have hnone : get_frame_info figs nbits header0 n prev = none := by
        rw [hgfi, hDnil]; rfl
      have hall : allFramesGo figs nbits header0 (fuel + 1) n prev = [] := by
        rw [allFramesGo, hnone]
      rw [hall, List.drop_eq_nil_of_le (by rw [canonSpan_length]; omega)]
      rfl
    · have hDne : D ≠ [] := by
        intro hnil
        rcases hE hnil with h | h
        · omega
        · omega
      have hsome : get_frame_info figs nbits header0 n prev = some D := by
        rw [hgfi, if_neg (by simpa [List.isEmpty_iff] using hDne)]
      have hall : allFramesGo figs nbits header0 (fuel + 1) n prev
          = D :: allFramesGo figs nbits header0 fuel (n + 1) D := by
        rw [allFramesGo, hsome]
      obtain ⟨c2, hc2⟩ : ∃ c2, D.getLast? = some c2 := by
        cases hD2 : D.getLast? with
        | none => exact absurd (List.getLast?_eq_none_iff.mp hD2) hDne
        | some c2 => exact ⟨c2, rfl⟩
      obtain ⟨h1, h2, h3⟩ := hL c2 hc2
      rw [hcpos] at h3
      have hP2a : P + 1 ≤ min (P + (nbits - (4 + (enc_vle n).length) * 8))
          (figBits figs) := by
        rcases Nat.le_total (P + (nbits - (4 + (enc_vle n).length) * 8))
            (figBits figs) with hm | hm
        · rw [min_eq_left hm]; omega
        · rw [min_eq_right hm]; omega
      have hrest := ih (n + 1) D c2
        (min (P + (nbits - (4 + (enc_vle n).length) * 8)) (figBits figs))
        (by omega) (by omega) hc2 h1 h2 h3 (min_le_right _ _) (by omega)
      rw [hall, List.flatMap_cons, hrest, hS, hcpos]
      rcases Nat.le_total (nbits - (4 + (enc_vle n).length) * 8)
          (figBits figs - P) with hm | hm
      · rw [min_eq_left (by omega), ← List.drop_drop, List.take_append_drop]
      · rw [min_eq_right (by omega),
          @List.drop_eq_nil_of_le _ (canonSpan figs) (figBits figs)
            (le_of_eq (canonSpan_length figs)),
          List.take_of_length_le
            (by rw [List.length_drop, canonSpan_length]; omega),
          List.append_nil]

/-- C2 amended: the frame packing is contiguous and exhaustive - the
frames' assigned bit ranges, concatenated in frame order, tile exactly the
canonical figment enumeration (stream header excluded: frame 0 carries it
wholesale in its `bits_spent` budget), and the sequence then ends with
`None` - PROVIDED the figment dicts are pairwise distinct and every frame's
fixed overhead (checksum + frame number, plus the stream header on frame
0) fits the frame.  Without distinctness, `figs.index` resumes at the
wrong (first value-equal) figment; see the counterexample. -/
theorem frame_packing_amended (figs : List FigData) (nbits : Nat)
    (header0 : List Nat) (hnd : figs.Nodup)
    (hcap : ∀ n, n ≤ figBits figs →
      (4 + (enc_vle n).length) * 8
        + (if n = 0 then header0.length * 8 else 0) < nbits)
    (fuel : Nat) (hfuel : figBits figs + 2 ≤ fuel) :
    (allFrames figs nbits header0 fuel).flatMap frameSpan = canonSpan figs := by
  obtain ⟨fuel, rfl⟩ : ∃ f, fuel = f + 1 := ⟨fuel - 1, by omega⟩
  have hov0 : (4 + (enc_vle 0).length) * 8 + header0.length * 8 < nbits := by
    have hco := hcap 0 (Nat.zero_le _)
    rw [if_pos rfl] at hco
    omega
  obtain ⟨hS, hE, hN, hL⟩ := frameChunksGo_spec figs nbits
    (figs.length + nbits) 0 0
    ((4 + (enc_vle 0).length) * 8 + header0.length * 8)
    (fun _ => Nat.zero_le _) (by omega)
  have hgfi : get_frame_info figs nbits header0 0 []
      = if (frameChunksGo figs nbits (figs.length + nbits) 0 0
            ((4 + (enc_vle 0).length) * 8 + header0.length * 8)).isEmpty then
          none
        else some (frameChunksGo figs nbits (figs.length + nbits) 0 0
            ((4 + (enc_vle 0).length) * 8 + header0.length * 8)) := by
    unfold get_frame_info
    dsimp only
    rw [if_pos rfl]
  set D := frameChunksGo figs nbits (figs.length + nbits) 0 0
    ((4 + (enc_vle 0).length) * 8 + header0.length * 8) with hD
  have hp00 : posOf figs 0 0 = 0 := by cases figs <;> rfl
  rw [hp00] at hS hE hN hL
  by_cases htot : figBits figs = 0
  · have hDnil : D = [] := by
      by_contra hne
      have hlt := (hN hne).2
      omega
    have hnone : get_frame_info figs nbits header0 0 [] = none := by
      rw [hgfi, hDnil]; rfl
    have hall : allFrames figs nbits header0 (fuel + 1) = [] := by
      rw [allFrames, allFramesGo, hnone]
    have hcnil : canonSpan figs = [] := by
      have hl := canonSpan_length figs
      rw [htot] at hl
      exact List.length_eq_zero.mp hl
    rw [hall, hcnil]
    rfl
  · have hDne : D ≠ [] := by
      intro hnil
      rcases hE hnil with h | h
      · omega
      · omega
    have hsome : get_frame_info figs nbits header0 0 [] = some D := by
      rw [hgfi, if_neg (by simpa [List.isEmpty_iff] using hDne)]
    have hall : allFrames figs nbits header0 (fuel + 1)
        = D :: allFramesGo figs nbits header0 fuel 1 D := by
      rw [allFrames, allFramesGo, hsome]
    obtain ⟨c2, hc2⟩ : ∃ c2, D.getLast? = some c2 := by
      cases hD2 : D.getLast? with
      | none => exact absurd (List.getLast?_eq_none_iff.mp hD2) hDne
      | some c2 => exact ⟨c2, rfl⟩
    obtain ⟨h1, h2, h3⟩ := hL c2 hc2
    rw [Nat.zero_add] at h3
    have hm0 : 1 ≤ nbits - ((4 + (enc_vle 0).length) * 8 + header0.length * 8) := by
      omega
    have hP1a : 1 ≤ min
        (nbits - ((4 + (enc_vle 0).length) * 8 + header0.length * 8))
        (figBits figs) := by
      rcases Nat.le_total
          (nbits - ((4 + (enc_vle 0).length) * 8 + header0.length * 8))
          (figBits figs) with hm | hm
      · rw [min_eq_left hm]; omega
      · rw [min_eq_right hm]; omega
    have hrest := allFramesGo_spec figs hnd nbits header0 hcap fuel 1 D c2
      (min (nbits - ((4 + (enc_vle 0).length) * 8 + header0.length * 8))
        (figBits figs))
      le_rfl hP1a hc2 h1 h2 h3 (min_le_right _ _) (by omega)
    rw [hall, List.flatMap_cons, hrest, hS, List.drop_zero]
    rcases Nat.le_total
        (nbits - ((4 + (enc_vle 0).length) * 8 + header0.length * 8))
        (figBits figs) with hm | hm
    · rw [min_eq_left hm, ← canonSpan_length figs] at *
      exact List.take_append_drop _ _
    · rw [min_eq_right hm,
        @List.drop_eq_nil_of_le _ (canonSpan figs) (figBits figs)
          (le_of_eq (canonSpan_length figs)),
        List.take_of_length_le (by rw [canonSpan_length]; omega),
        List.append_nil]

/-- Two files of one byte each: their payload figment dicts
`{"len": 1, "pl": True}` are equal, so `figs.index` cannot tell them
apart. -/
def cexFiles : List VxFile := [⟨[97], 1, 0⟩, ⟨[98], 1, 0⟩]

def cexFigs : List FigData := mkFigs cexFiles

def cexHeader0 : List Nat := header0Of cexFiles

/-- Frame 0 of the counterexample stream (`nbits = 400` holds the stream
header plus every figment bit with the frame-0 overhead of 64 bits). -/
def cexFrame0 : List Chunk := (allFrames cexFigs 400 cexHeader0 1).headD []

set_option maxRecDepth 40000 in
/-- C2 counterexample: with two equal-sized files, frame 0 already assigns
every figment bit exactly once, yet `get_frame_info` for frame 1 is not
`None`: `figs.index` resumes at the FIRST payload dict equal to the last
chunk's fig (figment 1, not figment 3), so frame 1 re-assigns figments 2
and 3 - the concatenation over frames overlaps instead of ending, and the
end-of-stream `None` never comes. -/
theorem frame_packing_counterexample :
    frameSpan cexFrame0 = canonSpan cexFigs
    ∧ get_frame_info cexFigs 400 cexHeader0 1 cexFrame0 ≠ none
    ∧ (allFrames cexFigs 400 cexHeader0 2).flatMap frameSpan
        ≠ canonSpan cexFigs := by
  decide

set_option maxRecDepth 40000 in
/-- Witness for `frame_packing_amended`: one single-byte file on a
420-bit frame; the figment table is duplicate-free, every frame overhead
fits, and the frames tile the canonical enumeration exactly. -/
theorem frame_packing_amended_witness :
    ((mkFigs [⟨[97], 1, 0⟩]).Nodup
      ∧ (∀ n, n ≤ figBits (mkFigs [⟨[97], 1, 0⟩]) →
          (4 + (enc_vle n).length) * 8
            + (if n = 0 then (header0Of [⟨[97], 1, 0⟩]).length * 8 else 0)
            < 420)
      ∧ figBits (mkFigs [⟨[97], 1, 0⟩]) + 2 ≤ 170)
    ∧ (allFrames (mkFigs [⟨[97], 1, 0⟩]) 420 (header0Of [⟨[97], 1, 0⟩])
          170).flatMap frameSpan
        = canonSpan (mkFigs [⟨[97], 1, 0⟩]) :=
  ⟨⟨by decide, by decide, by decide⟩,
   frame_packing_amended (mkFigs [⟨[97], 1, 0⟩]) 420
     (header0Of [⟨[97], 1, 0⟩]) (by decide) (by decide) 170 (by decide)⟩

end Diodes
